import Mathlib

/-!
Verification of the unique-identifier generation core of the `go-utils`
repository: the Snowflake-style sequential node generator of the `uid`
package (`NewSnowflakeNode`, `SnowflakeNode.NewID`, `ParseSnowflakeID`)
and the ULID-style sortable identifier generator of the same package
(`NewULID`, `newUlid`, `ulidTag.String`, `MonotonicEntropy`).

Go machine integers are modelled as `Int`/`Nat` with explicit reduction
modulo `2 ^ 64` wherever Go's `int64`/`uint64` can wrap; Go byte slices
are modelled as `List Nat` with every element `< 256`.
-/

namespace GoUtils

set_option maxRecDepth 40000

/-! ### Two's-complement `int64` arithmetic on `Int` -/

/-- The unsigned 64-bit (two's complement) representation of an `Int`. -/
def toU64 (x : Int) : Nat := (x % (2 ^ 64 : Int)).toNat

/-- Interpret an unsigned 64-bit value as a signed Go `int64`. -/
def ofU64 (n : Nat) : Int := if n < 2 ^ 63 then (n : Int) else (n : Int) - 2 ^ 64

/-- Go `int64` left shift `x << n`: bits shifted past position 63 are discarded. -/
def shl64 (x : Int) (n : Nat) : Int := ofU64 (toU64 x * 2 ^ n % 2 ^ 64)

/-- Go `int64` arithmetic right shift `x >> n` (sign extending), i.e. floor
division by `2 ^ n`. -/
def shr64 (x : Int) (n : Nat) : Int := Int.fdiv x (2 ^ n)

/-- Go `int64` bitwise or. -/
def orI64 (x y : Int) : Int := ofU64 (toU64 x ||| toU64 y)

/-- Go `int64` bitwise and. -/
def andI64 (x y : Int) : Int := ofU64 (toU64 x &&& toU64 y)

/-- Bitwise or with a value strictly below a power of two dividing the other
operand is plain addition. -/
theorem lor_eq_add {a b : Nat} (k : Nat) (ha : a % 2 ^ k = 0) (hb : b < 2 ^ k) :
    a ||| b = a + b := by
  obtain ⟨q, rfl⟩ : ∃ q, a = 2 ^ k * q :=
    ⟨a / 2 ^ k, (Nat.div_mul_cancel (Nat.dvd_of_mod_eq_zero ha)).symm.trans
      (Nat.mul_comm _ _)⟩
  apply Nat.eq_of_testBit_eq
  intro j
  rw [Nat.testBit_lor]
  by_cases hj : j < k
  · have h1 : Nat.testBit (2 ^ k * q) j = false := by
      rw [Nat.mul_comm, ← Nat.shiftLeft_eq]
      simp only [Nat.testBit_shiftLeft]
      simp [Nat.not_le.mpr hj]
    have h2 : 2 ^ k * q + b = b + 2 ^ j * (2 ^ (k - j) * q) := by
      rw [← Nat.mul_assoc, ← Nat.pow_add]
      have : j + (k - j) = k := by omega
      rw [this, Nat.add_comm]
    rw [h1, Bool.false_or, Nat.testBit_to_div_mod, Nat.testBit_to_div_mod, h2,
      Nat.add_mul_div_left _ _ (Nat.two_pow_pos j)]
    have h3 : 2 ^ (k - j) * q = 2 * (2 ^ (k - j - 1) * q) := by
      rw [← Nat.mul_assoc]
      congr 1
      rw [← Nat.pow_succ']
      congr 1
      omega
    rw [h3, Nat.add_mul_mod_self_left]
  · have hbj : Nat.testBit b j = false :=
      Nat.testBit_eq_false_of_lt
        (lt_of_lt_of_le hb (Nat.pow_le_pow_right (by norm_num) (Nat.not_lt.mp hj)))
    have l1 : Nat.testBit (2 ^ k * q) j = Nat.testBit q (j - k) := by
      rw [Nat.mul_comm, ← Nat.shiftLeft_eq]
      simp [Nat.testBit_shiftLeft, Nat.not_lt.mp hj]
    have hdiv : (2 ^ k * q + b) / 2 ^ j = q / 2 ^ (j - k) := by
      have hsplit : (2 : Nat) ^ j = 2 ^ k * 2 ^ (j - k) := by
        rw [← Nat.pow_add]
        congr 1
        omega
      rw [hsplit, ← Nat.div_div_eq_div_mul, Nat.mul_add_div (Nat.two_pow_pos k),
        Nat.div_eq_of_lt hb, Nat.add_zero]
    have l2 : Nat.testBit (2 ^ k * q + b) j = Nat.testBit q (j - k) := by
      rw [Nat.testBit_to_div_mod, Nat.testBit_to_div_mod, hdiv]
    rw [hbj, Bool.or_false, l1, l2]

/-- Bitwise and with an all-ones mask is reduction modulo a power of two. -/
theorem land_mask (n k : Nat) : n &&& (2 ^ k - 1) = n % 2 ^ k := by
  apply Nat.eq_of_testBit_eq
  intro j
  simp [Nat.testBit_land, Nat.testBit_mod_two_pow, Bool.and_comm]

/-! ### Snowflake sequential node generator

Source: `uid` package, `NewSnowflakeNode` / `SnowflakeNode.NewID` /
`ParseSnowflakeID`.  The `sync.Mutex` in `SnowflakeNode` only serializes
calls, so a sequential model captures all behaviours of a single node. -/

/-- `workerIDBits`: bits reserved for the worker id. -/
def workerIDBits : Nat := 10

/-- `sequenceBits`: bits reserved for the per-millisecond sequence. -/
def sequenceBits : Nat := 12

/-- `workerIDShift = sequenceBits`. -/
def workerIDShift : Nat := sequenceBits

/-- `timestampShift = workerIDBits + sequenceBits`. -/
def timestampShift : Nat := workerIDBits + sequenceBits

/-- `sequenceMask = -1 ^ (-1 << sequenceBits)`, which equals `2 ^ 12 - 1 = 4095`. -/
def sequenceMask : Int := 2 ^ sequenceBits - 1

/-- `maxWorkerID = -1 ^ (-1 << workerIDBits)`, which equals `2 ^ 10 - 1 = 1023`. -/
def maxWorkerID : Int := 2 ^ workerIDBits - 1

/-- `Epoch`: the fixed start instant of the algorithm in Unix milliseconds
(2025-10-01 00:00:00). -/
def Epoch : Int := 1759248000000

/-- Mutable state of a `SnowflakeNode`. -/
structure SnowflakeNode where
  lastTimestamp : Int
  workerID : Int
  sequence : Int
deriving DecidableEq

/-- `NewSnowflakeNode`: fails iff the worker id is outside `[0, maxWorkerID]`;
the other fields start at Go's zero value. -/
def NewSnowflakeNode (workerID : Int) : Except String SnowflakeNode :=
  if workerID < 0 ∨ workerID > maxWorkerID then
    Except.error "worker ID must be between 0 and 1023"
  else
    Except.ok { lastTimestamp := 0, workerID := workerID, sequence := 0 }

/-- The id assembly at the end of `NewID`:
`((now - Epoch) << timestampShift) | (workerID << workerIDShift) | sequence`. -/
def mkId (now workerID sequence : Int) : Int :=
  orI64 (orI64 (shl64 (now - Epoch) timestampShift) (shl64 workerID workerIDShift))
    sequence

/-- The spin-wait `for now <= n.lastTimestamp { now = clock }`: consume clock
readings until one exceeds `last` (or the supplied readings run out). -/
def spinWait (last : Int) : List Int → Option (Int × List Int)
  | [] => none
  | t :: rest => if t ≤ last then spinWait last rest else some (t, rest)

/-- The body of `NewID` after the clock-rollback handling, entered with the
(possibly re-read) clock value `now`. -/
def NewIDBody (n : SnowflakeNode) (now : Int) (rest : List Int) :
    Option (Int × SnowflakeNode × List Int) :=
  if now = n.lastTimestamp then
    let seq := andI64 (n.sequence + 1) sequenceMask
    if seq = 0 then
      match spinWait n.lastTimestamp rest with
      | none => none
      | some (now2, rest2) =>
        some (mkId now2 n.workerID 0,
          { n with lastTimestamp := now2, sequence := 0 }, rest2)
    else
      some (mkId now n.workerID seq,
        { n with lastTimestamp := now, sequence := seq }, rest)
  else
    some (mkId now n.workerID 0,
      { n with lastTimestamp := now, sequence := 0 }, rest)

/-- One `SnowflakeNode.NewID` call.  The clock
(`time.Now().UnixNano() / 1e6`) is modelled as a list of future readings,
consumed left to right; the `time.Sleep` in the clock-rollback branch is
modelled by consuming one further reading (the value re-read after the
sleep).  Returns the id, the mutated node and the unconsumed readings, or
`none` when the supplied readings run out. -/
def NewID (n : SnowflakeNode) (clock : List Int) :
    Option (Int × SnowflakeNode × List Int) :=
  match clock with
  | [] => none
  | now :: rest =>
    if now < n.lastTimestamp then
      match rest with
      | [] => none
      | now1 :: rest1 => NewIDBody n now1 rest1
    else NewIDBody n now rest

/-- `ParseSnowflakeID`: recover `(timestamp, workerID, sequence)` from an id. -/
def ParseSnowflakeID (id : Int) : Int × Int × Int :=
  (shr64 id timestampShift + Epoch,
   andI64 (shr64 id workerIDShift) maxWorkerID,
   andI64 id sequenceMask)

/-- Run a number of successive `NewID` calls against a clock trace, collecting
the returned ids (stopping early if the trace is exhausted). -/
def runIDs : Nat → SnowflakeNode → List Int → List Int × SnowflakeNode × List Int
  | 0, n, clock => ([], n, clock)
  | calls + 1, n, clock =>
    match NewID n clock with
    | none => ([], n, clock)
    | some (id, n', clock') =>
      let r := runIDs calls n' clock'
      (id :: r.1, r.2)

/-- The clock trace is well behaved for one call from node state `n`: when the
rollback branch sleeps and re-reads the clock, the re-read value has caught up
to `lastTimestamp` — which is what `time.Sleep(lastTimestamp - now)` achieves
unless the clock is stepped backward again during the sleep. -/
def goodNewID (n : SnowflakeNode) (clock : List Int) : Bool :=
  match clock with
  | [] => true
  | now :: rest =>
    if now < n.lastTimestamp then
      match rest with
      | [] => true
      | now1 :: _ => n.lastTimestamp ≤ now1
    else true

/-- Every rollback sleep across a run of `NewID` calls catches up. -/
def goodRun : Nat → SnowflakeNode → List Int → Bool
  | 0, _, _ => true
  | calls + 1, n, clock =>
    goodNewID n clock &&
      match NewID n clock with
      | none => true
      | some (_, n', clock') => goodRun calls n' clock'

/-! ### Arithmetic characterisation of the Snowflake bit operations -/

/-- `shl64` by 22 is plain multiplication for operands small enough not to
overflow (both signs). -/
theorem shl64_22 {x : Int} (h1 : -(2 ^ 41) < x) (h2 : x < 2 ^ 41) :
    shl64 x 22 = x * 2 ^ 22 := by
  simp only [shl64, toU64, ofU64]
  split <;> omega

/-- `shl64` by 12 is plain multiplication for a worker id in `[0, 1023]`. -/
theorem shl64_12 {x : Int} (h1 : 0 ≤ x) (h2 : x ≤ 1023) :
    shl64 x 12 = x * 2 ^ 12 := by
  simp only [shl64, toU64, ofU64]
  split <;> omega

/-- `orI64` with a 22-bit-aligned left operand and a right operand below
`2 ^ 22` is plain addition. -/
theorem orI64_eq_add_22 {x y : Int} (hx0 : -(2 ^ 63) ≤ x) (hx1 : x < 2 ^ 63)
    (hxk : x % 2 ^ 22 = 0) (hy0 : 0 ≤ y) (hyk : y < 2 ^ 22) : orI64 x y = x + y := by
  have hlor : toU64 x ||| toU64 y = toU64 x + toU64 y :=
    lor_eq_add 22 (by simp only [toU64]; omega) (by simp only [toU64]; omega)
  rw [orI64, hlor]
  simp only [ofU64, toU64]
  split <;> omega

/-- `orI64` with a 12-bit-aligned left operand and a right operand below
`2 ^ 12` is plain addition. -/
theorem orI64_eq_add_12 {x y : Int} (hx0 : -(2 ^ 63) ≤ x) (hx1 : x < 2 ^ 63)
    (hxk : x % 2 ^ 12 = 0) (hy0 : 0 ≤ y) (hyk : y < 2 ^ 12) : orI64 x y = x + y := by
  have hlor : toU64 x ||| toU64 y = toU64 x + toU64 y :=
    lor_eq_add 12 (by simp only [toU64]; omega) (by simp only [toU64]; omega)
  rw [orI64, hlor]
  simp only [ofU64, toU64]
  split <;> omega

/-- Masking with `sequenceMask` keeps the low 12 bits. -/
theorem andI64_sequenceMask (x : Int) : andI64 x sequenceMask = x % 2 ^ 12 := by
  have h1 : toU64 sequenceMask = 2 ^ 12 - 1 := rfl
  rw [andI64, h1, land_mask]
  simp only [ofU64, toU64]
  split <;> omega

/-- Masking with `maxWorkerID` keeps the low 10 bits. -/
theorem andI64_maxWorkerID (x : Int) : andI64 x maxWorkerID = x % 2 ^ 10 := by
  have h1 : toU64 maxWorkerID = 2 ^ 10 - 1 := rfl
  rw [andI64, h1, land_mask]
  simp only [ofU64, toU64]
  split <;> omega

/-- With the timestamp delta within 41 bits (either sign), the worker id in
`[0, 1023]` and the sequence in `[0, 4095]`, the id assembly is ordinary
positional arithmetic. -/
theorem mkId_eq {now w s : Int} (h1 : Epoch - 2 ^ 41 < now) (h2 : now < Epoch + 2 ^ 41)
    (h3 : 0 ≤ w) (h4 : w ≤ 1023) (h5 : 0 ≤ s) (h6 : s ≤ 4095) :
    mkId now w s = (now - Epoch) * 2 ^ 22 + w * 2 ^ 12 + s := by
  have hts : timestampShift = 22 := rfl
  have hws : workerIDShift = 12 := rfl
  have hE : Epoch = 1759248000000 := rfl
  rw [mkId, hts, hws, shl64_22 (by omega) (by omega), shl64_12 h3 h4,
    orI64_eq_add_22 (x := (now - Epoch) * 2 ^ 22) (y := w * 2 ^ 12)
      (by omega) (by omega) (by omega) (by omega) (by omega),
    orI64_eq_add_12 (by omega) (by omega) (by omega) (by omega) (by omega)]

/-- `ParseSnowflakeID` inverts the id assembly on any in-field triple (the
timestamp may even lie up to `2 ^ 41 - 1` ms before the epoch). -/
theorem parse_mkId {now w s : Int} (h1 : Epoch - 2 ^ 41 < now)
    (h2 : now < Epoch + 2 ^ 41) (h3 : 0 ≤ w) (h4 : w ≤ 1023) (h5 : 0 ≤ s)
    (h6 : s ≤ 4095) : ParseSnowflakeID (mkId now w s) = (now, w, s) := by
  have hE : Epoch = 1759248000000 := rfl
  rw [mkId_eq h1 h2 h3 h4 h5 h6]
  have hts : timestampShift = 22 := rfl
  have hws : workerIDShift = 12 := rfl
  rw [ParseSnowflakeID, hts, hws, andI64_sequenceMask, andI64_maxWorkerID]
  simp only [shr64, Int.fdiv_eq_ediv _ (by norm_num : (0:Int) ≤ 2 ^ 22),
    Int.fdiv_eq_ediv _ (by norm_num : (0:Int) ≤ 2 ^ 12), Prod.mk.injEq]
  refine ⟨by omega, by omega, by omega⟩

/-- The first timestamp component of `ParseSnowflakeID` is monotone in the id. -/
theorem parse_fst_mono {a b : Int} (h : a ≤ b) :
    (ParseSnowflakeID a).1 ≤ (ParseSnowflakeID b).1 := by
  have hts : timestampShift = 22 := rfl
  simp only [ParseSnowflakeID, hts, shr64,
    Int.fdiv_eq_ediv _ (by norm_num : (0:Int) ≤ 2 ^ 22)]
  have := Int.ediv_le_ediv (by norm_num : (0:Int) < 2 ^ 22) h
  omega

/-! ### Behaviour of a `SnowflakeNode` across calls -/

/-- The numeric value a well-formed node's current `(lastTimestamp, workerID,
sequence)` triple packs to. -/
def idKey (n : SnowflakeNode) : Int :=
  (n.lastTimestamp - Epoch) * 2 ^ 22 + n.workerID * 2 ^ 12 + n.sequence

/-- Invariant of a node that has issued at least one id with an in-range
clock. -/
def NodeInv (n : SnowflakeNode) : Prop :=
  0 ≤ n.workerID ∧ n.workerID ≤ 1023 ∧ 0 ≤ n.sequence ∧ n.sequence ≤ 4095 ∧
    Epoch ≤ n.lastTimestamp ∧ n.lastTimestamp < Epoch + 2 ^ 41

/-- State of a node as returned by `NewSnowflakeNode`. -/
def FreshInv (n : SnowflakeNode) : Prop :=
  0 ≤ n.workerID ∧ n.workerID ≤ 1023 ∧ n.lastTimestamp = 0 ∧ n.sequence = 0

/-- `spinWait` returns the first clock reading strictly beyond `last`,
together with a suffix of the remaining readings. -/
theorem spinWait_spec {last : Int} : ∀ {l : List Int} {t : Int} {r : List Int},
    spinWait last l = some (t, r) → last < t ∧ t ∈ l ∧ ∀ x ∈ r, x ∈ l := by
  intro l
  induction l with
  | nil => intro t r h; simp [spinWait] at h
  | cons a l ih =>
    intro t r h
    rw [spinWait] at h
    split at h
    · obtain ⟨h1, h2, h3⟩ := ih h
      exact ⟨h1, List.mem_cons_of_mem _ h2,
        fun x hx => List.mem_cons_of_mem _ (h3 x hx)⟩
    · rename_i hc
      simp only [Option.some.injEq, Prod.mk.injEq] at h
      obtain ⟨rfl, rfl⟩ := h
      exact ⟨by omega, List.mem_cons_self _ _, fun x hx => List.mem_cons_of_mem _ hx⟩

/-- One execution of the body of `NewID` from a well-formed node with an
in-range, caught-up clock value strictly increases the packed key, and the
returned id is exactly the new key. -/
theorem NewIDBody_step {n : SnowflakeNode} {now : Int} {rest : List Int} {id : Int}
    {n' : SnowflakeNode} {clock' : List Int} (hinv : NodeInv n)
    (hnow : n.lastTimestamp ≤ now) (hlo : Epoch ≤ now) (hhi : now < Epoch + 2 ^ 41)
    (hrest : ∀ t ∈ rest, Epoch ≤ t ∧ t < Epoch + 2 ^ 41)
    (h : NewIDBody n now rest = some (id, n', clock')) :
    NodeInv n' ∧ id = idKey n' ∧ idKey n < idKey n' ∧ n'.workerID = n.workerID ∧
      n.lastTimestamp ≤ n'.lastTimestamp ∧ ∀ x ∈ clock', x ∈ rest := by
  obtain ⟨hw0, hw1, hs0, hs1, hl0, hl1⟩ := hinv
  have hE : Epoch = 1759248000000 := rfl
  simp only [NewIDBody, andI64_sequenceMask] at h
  split at h
  · rename_i heq
    split at h
    · rename_i hseq
      have hs4095 : n.sequence = 4095 := by omega
      split at h
      · exact absurd h (by simp)
      · rename_i now2 rest2 hsw
        obtain ⟨hgt, hmem, hsub⟩ := spinWait_spec hsw
        obtain ⟨ht0, ht1⟩ := hrest now2 hmem
        simp only [Option.some.injEq, Prod.mk.injEq] at h
        obtain ⟨rfl, rfl, rfl⟩ := h
        refine ⟨⟨by dsimp only; omega, by dsimp only; omega, by dsimp only; omega,
          by dsimp only; omega, by dsimp only; omega, by dsimp only; omega⟩,
          ?_, ?_, rfl, by dsimp only; omega, hsub⟩
        · dsimp only [idKey]
          rw [mkId_eq (by omega) (by omega) hw0 hw1 (by omega) (by omega)]
        · dsimp only [idKey]
          omega
    · rename_i hseq
      have hseq1 : (n.sequence + 1) % 2 ^ 12 = n.sequence + 1 := by omega
      rw [hseq1] at h
      simp only [Option.some.injEq, Prod.mk.injEq] at h
      obtain ⟨rfl, rfl, rfl⟩ := h
      refine ⟨⟨by dsimp only; omega, by dsimp only; omega, by dsimp only; omega,
        by dsimp only; omega, by dsimp only; omega, by dsimp only; omega⟩,
        ?_, ?_, rfl, by dsimp only; omega, fun x hx => hx⟩
      · dsimp only [idKey]
        rw [mkId_eq (by omega) (by omega) hw0 hw1 (by omega) (by omega)]
      · dsimp only [idKey]
        omega
  · rename_i hne
    have hgt : n.lastTimestamp < now := by omega
    simp only [Option.some.injEq, Prod.mk.injEq] at h
    obtain ⟨rfl, rfl, rfl⟩ := h
    refine ⟨⟨by dsimp only; omega, by dsimp only; omega, by dsimp only; omega,
      by dsimp only; omega, by dsimp only; omega, by dsimp only; omega⟩,
      ?_, ?_, rfl, by dsimp only; omega, fun x hx => hx⟩
    · dsimp only [idKey]
      rw [mkId_eq (by omega) (by omega) hw0 hw1 (by omega) (by omega)]
    · dsimp only [idKey]
      omega

/-- One `NewID` call from a well-formed node, with in-range clock readings and
a well-behaved rollback sleep, strictly increases the packed key. -/
theorem NewID_step {n : SnowflakeNode} {clock : List Int} {id : Int}
    {n' : SnowflakeNode} {clock' : List Int} (hinv : NodeInv n)
    (hclk : ∀ t ∈ clock, Epoch ≤ t ∧ t < Epoch + 2 ^ 41)
    (hgood : goodNewID n clock = true)
    (h : NewID n clock = some (id, n', clock')) :
    NodeInv n' ∧ id = idKey n' ∧ idKey n < idKey n' ∧ n'.workerID = n.workerID ∧
      n.lastTimestamp ≤ n'.lastTimestamp ∧ ∀ x ∈ clock', x ∈ clock := by
  match clock, hclk, hgood with
  | [], _, _ => exact absurd h (by simp [NewID])
  | now :: rest, hclk, hgood =>
    simp only [NewID] at h
    split at h
    · rename_i hlt
      match rest, hclk, hgood with
      | [], _, _ => exact absurd h (by simp)
      | now1 :: rest1, hclk, hgood =>
        have hcatch : n.lastTimestamp ≤ now1 := by
          simp only [goodNewID, if_pos hlt, decide_eq_true_eq] at hgood
          exact hgood
        have hmem : Epoch ≤ now1 ∧ now1 < Epoch + 2 ^ 41 :=
          hclk now1 (by simp)
        obtain ⟨a, b, c, d, e, f⟩ := NewIDBody_step hinv hcatch hmem.1 hmem.2
          (fun t ht => hclk t (by simp [ht])) h
        exact ⟨a, b, c, d, e, fun x hx => by simp [f x hx]⟩
    · rename_i hge
      obtain ⟨hmem1, hmem2⟩ := hclk now (by simp)
      obtain ⟨a, b, c, d, e, f⟩ := NewIDBody_step hinv (by omega) hmem1 hmem2
        (fun t ht => hclk t (by simp [ht])) h
      exact ⟨a, b, c, d, e, fun x hx => by simp [f x hx]⟩

/-- The first `NewID` call on a freshly constructed node with in-range clock
readings establishes `NodeInv` and returns the new key. -/
theorem NewID_first {n : SnowflakeNode} {clock : List Int} {id : Int}
    {n' : SnowflakeNode} {clock' : List Int} (hfresh : FreshInv n)
    (hclk : ∀ t ∈ clock, Epoch ≤ t ∧ t < Epoch + 2 ^ 41)
    (h : NewID n clock = some (id, n', clock')) :
    NodeInv n' ∧ id = idKey n' ∧ n'.workerID = n.workerID ∧
      ∀ x ∈ clock', x ∈ clock := by
  obtain ⟨hw0, hw1, hlz, hsz⟩ := hfresh
  have hE : Epoch = 1759248000000 := rfl
  match clock, hclk with
  | [], _ => exact absurd h (by simp [NewID])
  | now :: rest, hclk =>
    obtain ⟨hmem1, hmem2⟩ := hclk now (by simp)
    simp only [NewID] at h
    rw [if_neg (by omega)] at h
    simp only [NewIDBody, andI64_sequenceMask] at h
    rw [if_neg (by omega)] at h
    simp only [Option.some.injEq, Prod.mk.injEq] at h
    obtain ⟨rfl, rfl, rfl⟩ := h
    refine ⟨⟨by dsimp only; omega, by dsimp only; omega, by dsimp only; omega,
      by dsimp only; omega, by dsimp only; omega, by dsimp only; omega⟩, ?_, rfl,
      fun x hx => by simp [hx]⟩
    dsimp only [idKey]
    rw [mkId_eq (by omega) (by omega) hw0 hw1 (by omega) (by omega)]

/-- Across a run from a `NodeInv` state, the issued ids are pairwise strictly
increasing and all exceed the starting key. -/
theorem runIDs_strict {calls : Nat} : ∀ {n : SnowflakeNode} {clock : List Int},
    NodeInv n → (∀ t ∈ clock, Epoch ≤ t ∧ t < Epoch + 2 ^ 41) →
    goodRun calls n clock = true →
    (runIDs calls n clock).1.Pairwise (· < ·) ∧
      ∀ x ∈ (runIDs calls n clock).1, idKey n < x := by
  induction calls with
  | zero => intro n clock _ _ _; simp [runIDs]
  | succ k ih =>
    intro n clock hinv hclk hgood
    rw [goodRun] at hgood
    cases hN : NewID n clock with
    | none => simp [runIDs, hN]
    | some v =>
      obtain ⟨id, n', clock'⟩ := v
      rw [hN, Bool.and_eq_true] at hgood
      obtain ⟨hinv', hkey, hlt, _, _, hsub⟩ := NewID_step hinv hclk hgood.1 hN
      have hclk' : ∀ t ∈ clock', Epoch ≤ t ∧ t < Epoch + 2 ^ 41 :=
        fun t ht => hclk t (hsub t ht)
      obtain ⟨hp, hgt⟩ := ih hinv' hclk' hgood.2
      simp only [runIDs, hN]
      constructor
      · rw [List.pairwise_cons]
        exact ⟨fun b hb => by have := hgt b hb; omega, hp⟩
      · intro x hx
        rcases List.mem_cons.mp hx with rfl | hx
        · omega
        · have := hgt x hx
          omega

/-- Across a run from a fresh node, the issued ids are pairwise strictly
increasing. -/
theorem runIDs_fresh_strict {calls : Nat} {n : SnowflakeNode} {clock : List Int}
    (hfresh : FreshInv n) (hclk : ∀ t ∈ clock, Epoch ≤ t ∧ t < Epoch + 2 ^ 41)
    (hgood : goodRun calls n clock = true) :
    (runIDs calls n clock).1.Pairwise (· < ·) := by
  cases calls with
  | zero => simp [runIDs]
  | succ k =>
    rw [goodRun] at hgood
    cases hN : NewID n clock with
    | none => simp [runIDs, hN]
    | some v =>
      obtain ⟨id, n', clock'⟩ := v
      rw [hN, Bool.and_eq_true] at hgood
      obtain ⟨hinv', hkey, _, hsub⟩ := NewID_first hfresh hclk hN
      have hclk' : ∀ t ∈ clock', Epoch ≤ t ∧ t < Epoch + 2 ^ 41 :=
        fun t ht => hclk t (hsub t ht)
      obtain ⟨hp, hgt⟩ := runIDs_strict hinv' hclk' hgood.2
      simp only [runIDs, hN]
      rw [List.pairwise_cons]
      exact ⟨fun b hb => by have := hgt b hb; omega, hp⟩

/-- `NewSnowflakeNode` succeeds exactly on worker ids in `[0, 1023]`, and a
successful construction is the zero-state node with that worker id. -/
theorem NewSnowflakeNode_ok {w : Int} {n : SnowflakeNode}
    (h : NewSnowflakeNode w = Except.ok n) :
    0 ≤ w ∧ w ≤ 1023 ∧ n = ⟨0, w, 0⟩ := by
  have hm : maxWorkerID = 1023 := rfl
  rw [NewSnowflakeNode] at h
  split at h
  · exact absurd h (by simp)
  · rename_i hc
    simp only [Except.ok.injEq] at h
    exact ⟨by omega, by omega, h.symm⟩

/-- The worker id of a node is never changed by `NewIDBody`. -/
theorem NewIDBody_workerID {n : SnowflakeNode} {now : Int} {rest : List Int}
    {id : Int} {n' : SnowflakeNode} {clock' : List Int}
    (h : NewIDBody n now rest = some (id, n', clock')) :
    n'.workerID = n.workerID := by
  simp only [NewIDBody] at h
  split at h
  · split at h
    · split at h
      · exact absurd h (by simp)
      · simp only [Option.some.injEq, Prod.mk.injEq] at h
        obtain ⟨-, rfl, -⟩ := h
        rfl
    · simp only [Option.some.injEq, Prod.mk.injEq] at h
      obtain ⟨-, rfl, -⟩ := h
      rfl
  · simp only [Option.some.injEq, Prod.mk.injEq] at h
    obtain ⟨-, rfl, -⟩ := h
    rfl

/-- The worker id of a node is never changed by `NewID`. -/
theorem NewID_workerID {n : SnowflakeNode} {clock : List Int} {id : Int}
    {n' : SnowflakeNode} {clock' : List Int}
    (h : NewID n clock = some (id, n', clock')) :
    n'.workerID = n.workerID := by
  match clock with
  | [] => exact absurd h (by simp [NewID])
  | now :: rest =>
    simp only [NewID] at h
    split at h
    · match rest with
      | [] => exact absurd h (by simp)
      | now1 :: rest1 => exact NewIDBody_workerID h
    · exact NewIDBody_workerID h

/-! ### Claim theorems for the Snowflake generator -/

/-- **C2.** For every sequence of calls to `SnowflakeNode.NewID` on a single
node, the returned `int64` values are pairwise strictly increasing.  The clock
is modelled as an arbitrary list of readings; the stated hypotheses are that
every reading lies in the 41-bit window the algorithm is designed for (the
spec flags post-`2 ^ 41` overflow as an open limitation) and that each
rollback sleep achieves catch-up (`goodRun`), which is what
`time.Sleep(lastTimestamp - now)` guarantees unless the clock is stepped
backward a second time during the sleep. -/
theorem snowflake_ids_strictly_increasing (w : Int) (n : SnowflakeNode)
    (hn : NewSnowflakeNode w = Except.ok n) (calls : Nat) (clock : List Int)
    (hclk : ∀ t ∈ clock, Epoch ≤ t ∧ t < Epoch + 2 ^ 41)
    (hgood : goodRun calls n clock = true) :
    (runIDs calls n clock).1.Pairwise (· < ·) := by
  obtain ⟨h0, h1, hn'⟩ := NewSnowflakeNode_ok hn
  subst hn'
  exact runIDs_fresh_strict ⟨h0, h1, rfl, rfl⟩ hclk hgood

/-- Witness for `snowflake_ids_strictly_increasing`: three calls inside the
same millisecond. -/
theorem snowflake_ids_strictly_increasing_witness :
    (runIDs 3 ⟨0, 3, 0⟩ [Epoch + 5, Epoch + 5, Epoch + 5]).1.Pairwise (· < ·) :=
  snowflake_ids_strictly_increasing 3 ⟨0, 3, 0⟩ rfl 3
    [Epoch + 5, Epoch + 5, Epoch + 5] (by decide) (by decide)

/-- **C3 (counterexample).** The claim quantifies over *every* behaviour of
the clock.  If the clock is stepped backward a second time while `NewID` is
sleeping, the single re-read after the sleep can still be behind
`lastTimestamp`, and the node then issues an id whose decoded timestamp is
*earlier* than that of the previously issued id: with readings
`[Epoch+1000, Epoch+900, Epoch+950]` the second call sleeps (reading
`Epoch+900 < Epoch+1000`), re-reads `Epoch+950`, and issues an id with
decoded timestamp `Epoch+950 < Epoch+1000`. -/
theorem snowflake_rollback_regress_counterexample :
    NewSnowflakeNode 1 = Except.ok ⟨0, 1, 0⟩ ∧
    (runIDs 2 ⟨0, 1, 0⟩ [Epoch + 1000, Epoch + 900, Epoch + 950]).1.length = 2 ∧
    (ParseSnowflakeID ((runIDs 2 ⟨0, 1, 0⟩
        [Epoch + 1000, Epoch + 900, Epoch + 950]).1.getD 1 0)).1 <
      (ParseSnowflakeID ((runIDs 2 ⟨0, 1, 0⟩
        [Epoch + 1000, Epoch + 900, Epoch + 950]).1.getD 0 0)).1 :=
  ⟨rfl, by decide, by decide⟩

/-- **C3 (amended).** When `now < lastTimestamp` the call sleeps for the
difference and re-reads the clock (modelled by consuming the next reading);
*provided each such re-read has caught up to `lastTimestamp`* (`goodRun` —
the clock is not stepped backward again during the sleep), a node never
issues an id whose decoded timestamp is earlier than that of any previously
issued id. -/
theorem snowflake_timestamps_never_regress (w : Int) (n : SnowflakeNode)
    (hn : NewSnowflakeNode w = Except.ok n) (calls : Nat) (clock : List Int)
    (hclk : ∀ t ∈ clock, Epoch ≤ t ∧ t < Epoch + 2 ^ 41)
    (hgood : goodRun calls n clock = true) :
    (runIDs calls n clock).1.Pairwise
      (fun a b => (ParseSnowflakeID a).1 ≤ (ParseSnowflakeID b).1) := by
  obtain ⟨h0, h1, hn'⟩ := NewSnowflakeNode_ok hn
  subst hn'
  exact (runIDs_fresh_strict ⟨h0, h1, rfl, rfl⟩ hclk hgood).imp
    (fun hab => parse_fst_mono (le_of_lt hab))

/-- Witness for `snowflake_timestamps_never_regress`: a rollback of 100ms
whose sleep catches up. -/
theorem snowflake_timestamps_never_regress_witness :
    (runIDs 2 ⟨0, 2, 0⟩ [Epoch + 1000, Epoch + 900, Epoch + 1000]).1.Pairwise
      (fun a b => (ParseSnowflakeID a).1 ≤ (ParseSnowflakeID b).1) :=
  snowflake_timestamps_never_regress 2 ⟨0, 2, 0⟩ rfl 2
    [Epoch + 1000, Epoch + 900, Epoch + 1000] (by decide) (by decide)

/-- **C4.** For every triple `(ts, w, s)` with `ts - Epoch ∈ [0, 2^41)`,
`w ∈ [0, 1023]` and `s ∈ [0, 4095]`, packing as
`((ts - Epoch) << 22) | (w << 12) | s` and applying `ParseSnowflakeID`
recovers exactly the original triple, with the epoch added back onto the
timestamp. -/
theorem parseSnowflakeID_roundtrip (ts w s : Int) (h1 : 0 ≤ ts - Epoch)
    (h2 : ts - Epoch < 2 ^ 41) (h3 : 0 ≤ w) (h4 : w ≤ 1023)
    (h5 : 0 ≤ s) (h6 : s ≤ 4095) :
    ParseSnowflakeID (mkId ts w s) = (ts, w, s) :=
  parse_mkId (by omega) (by omega) h3 h4 h5 h6

/-- Witness for `parseSnowflakeID_roundtrip`. -/
theorem parseSnowflakeID_roundtrip_witness :
    ParseSnowflakeID (mkId (Epoch + 123) 12 34) = (Epoch + 123, 12, 34) :=
  parseSnowflakeID_roundtrip (Epoch + 123) 12 34 (by decide) (by decide)
    (by decide) (by decide) (by decide) (by decide)

/-- **C7.** Per `NewID` call: a new millisecond resets the sequence to 0; the
same millisecond increments it by exactly 1; and when the increment would
pass 4095 the call spin-waits until the clock advances strictly past
`lastTimestamp`, then resets the sequence to 0 and adopts the new
millisecond. -/
theorem newID_sequence_behaviour (n : SnowflakeNode) (now : Int)
    (rest : List Int) (hs0 : 0 ≤ n.sequence) (hs1 : n.sequence ≤ 4095) :
    (n.lastTimestamp < now → NewID n (now :: rest) =
      some (mkId now n.workerID 0,
        { n with lastTimestamp := now, sequence := 0 }, rest)) ∧
    (now = n.lastTimestamp → n.sequence < 4095 → NewID n (now :: rest) =
      some (mkId now n.workerID (n.sequence + 1),
        { n with lastTimestamp := now, sequence := n.sequence + 1 }, rest)) ∧
    (now = n.lastTimestamp → n.sequence = 4095 →
      ∀ t rest2, spinWait n.lastTimestamp rest = some (t, rest2) →
        n.lastTimestamp < t ∧ NewID n (now :: rest) =
          some (mkId t n.workerID 0,
            { n with lastTimestamp := t, sequence := 0 }, rest2)) := by
  refine ⟨?_, ?_, ?_⟩
  · intro h
    simp only [NewID]
    rw [if_neg (by omega)]
    simp only [NewIDBody, andI64_sequenceMask]
    rw [if_neg (by omega)]
  · intro h1 h2
    simp only [NewID]
    rw [if_neg (by omega)]
    simp only [NewIDBody, andI64_sequenceMask]
    rw [if_pos h1, if_neg (by omega)]
    have hseq1 : (n.sequence + 1) % 2 ^ 12 = n.sequence + 1 := by omega
    rw [hseq1]
  · intro h1 h2 t rest2 hsw
    refine ⟨(spinWait_spec hsw).1, ?_⟩
    simp only [NewID]
    rw [if_neg (by omega)]
    simp only [NewIDBody, andI64_sequenceMask]
    rw [if_pos h1, if_pos (by omega), hsw]

/-- Witness for `newID_sequence_behaviour`: a same-millisecond call
incrementing the sequence from 5 to 6. -/
theorem newID_sequence_behaviour_witness :
    NewID ⟨Epoch + 7, 3, 5⟩ [Epoch + 7] =
      some (mkId (Epoch + 7) 3 6, ⟨Epoch + 7, 3, 6⟩, []) :=
  (newID_sequence_behaviour ⟨Epoch + 7, 3, 5⟩ (Epoch + 7) [] (by decide)
    (by decide)).2.1 rfl (by decide)

/-- **C8.** `NewSnowflakeNode` fails with a configuration error iff the
worker id lies outside `[0, 1023]`; on success the node's worker id equals
the argument, and no `NewID` call ever changes it. -/
theorem newSnowflakeNode_config_spec (w : Int) :
    ((∃ n, NewSnowflakeNode w = Except.ok n) ↔ 0 ≤ w ∧ w ≤ 1023) ∧
    ((∃ e, NewSnowflakeNode w = Except.error e) ↔ (w < 0 ∨ w > 1023)) ∧
    (∀ n, NewSnowflakeNode w = Except.ok n → n.workerID = w) ∧
    (∀ n clock id n' clock', NewID n clock = some (id, n', clock') →
      n'.workerID = n.workerID) := by
  have hm : maxWorkerID = 1023 := rfl
  refine ⟨?_, ?_, ?_, ?_⟩
  · constructor
    · rintro ⟨n, hn⟩
      obtain ⟨h0, h1, -⟩ := NewSnowflakeNode_ok hn
      exact ⟨h0, h1⟩
    · intro hw
      rw [NewSnowflakeNode, if_neg (by omega)]
      exact ⟨_, rfl⟩
  · constructor
    · rintro ⟨e, he⟩
      rw [NewSnowflakeNode] at he
      split at he
      · rename_i hc
        omega
      · exact absurd he (by simp)
    · intro hw
      rw [NewSnowflakeNode, if_pos (by omega)]
      exact ⟨_, rfl⟩
  · intro n hn
    obtain ⟨-, -, hn'⟩ := NewSnowflakeNode_ok hn
    rw [hn']
  · intro n clock id n' clock' h
    exact NewID_workerID h

/-- Witness for `newSnowflakeNode_config_spec` at `w = 5`. -/
theorem newSnowflakeNode_config_spec_witness :
    (∃ n, NewSnowflakeNode 5 = Except.ok n) ∧
      ((5:Int) ≥ 0 ∧ (5:Int) ≤ 1023) :=
  ⟨((newSnowflakeNode_config_spec 5).1).mpr (by decide), by decide⟩

/-- **C10.** A `NewID` call that observes a (positive) clock reading strictly
before `Epoch` returns a negative `int64`: the negative delta is shifted left
22 bits with no guard, so pre-epoch ids are negative rather than rejected. -/
theorem newID_pre_epoch_negative (w now : Int) (n : SnowflakeNode)
    (hn : NewSnowflakeNode w = Except.ok n) (h0 : 0 < now) (h1 : now < Epoch) :
    ∃ n' clock', NewID n [now] = some (mkId now w 0, n', clock') ∧
      mkId now w 0 < 0 := by
  obtain ⟨hw0, hw1, hn'⟩ := NewSnowflakeNode_ok hn
  subst hn'
  have hE : Epoch = 1759248000000 := rfl
  refine ⟨⟨now, w, 0⟩, [], ?_, ?_⟩
  · simp only [NewID]
    rw [if_neg (by omega)]
    simp only [NewIDBody, andI64_sequenceMask]
    rw [if_neg (by omega)]
  · rw [mkId_eq (by omega) (by omega) hw0 hw1 (by omega) (by omega)]
    omega

/-- Witness for `newID_pre_epoch_negative` at worker 5, clock reading 10. -/
theorem newID_pre_epoch_negative_witness :
    ∃ n' clock', NewID ⟨0, 5, 0⟩ [10] = some (mkId 10 5 0, n', clock') ∧
      mkId 10 5 0 < 0 :=
  newID_pre_epoch_negative 5 10 ⟨0, 5, 0⟩ rfl (by decide) (by decide)

/-! ### ULID sortable identifier generator

Source: `uid` package, `NewULID` / `newUlid` / `ulidTag.String` /
`MonotonicEntropy` / `lockedMonotonicReader`.  The 16-byte `ulidTag` is
modelled as a `List Nat` of length 16 with elements `< 256`; strings are
modelled as the list of their byte values (Go string comparison is
byte-wise lexicographic).  The `crypto/rand` reader is modelled as oracle
inputs: the 10 fresh bytes `io.ReadFull` would deliver and the increment
`MonotonicEntropy.random` would deliver.  The `lockedMonotonicReader`
mutex only serializes calls, so a sequential model captures all behaviours
of the process-wide generator. -/

/-- `encodedSize`: length of a text-encoded ULID. -/
def encodedSize : Nat := 26

/-- `encoding`: the Base32 alphabet of the ULID string form, as the list of
its byte (ASCII) values. -/
def encoding : List Nat := "0123456789ABCDEFGHJKMNPQRSTVWXYZ".toList.map Char.toNat

/-- `encoding[i]` (Go byte indexing into the alphabet string). -/
def encAt (i : Nat) : Nat := encoding.getD i 0

/-- `maxTime`: the maximum Unix millisecond time representable in a ULID. -/
def maxTime : Nat := 281474976710655

/-- The two error values of the generator (`ErrBigTime`,
`ErrMonotonicOverflow`). -/
inductive UlidErr where
  | bigTime
  | monotonicOverflow
deriving DecidableEq

/-- The 26 five-bit index expressions of `ulidTag.String` (the arguments of
`encoding[...]`, in output order). -/
def ulidGroups (id : List Nat) : List Nat :=
  match id with
  | [b0, b1, b2, b3, b4, b5, b6, b7, b8, b9, b10, b11, b12, b13, b14, b15] =>
    [(b0 &&& 224) >>> 5, b0 &&& 31,
     (b1 &&& 248) >>> 3, ((b1 &&& 7) <<< 2) ||| ((b2 &&& 192) >>> 6),
     (b2 &&& 62) >>> 1, ((b2 &&& 1) <<< 4) ||| ((b3 &&& 240) >>> 4),
     ((b3 &&& 15) <<< 1) ||| ((b4 &&& 128) >>> 7), (b4 &&& 124) >>> 2,
     ((b4 &&& 3) <<< 3) ||| ((b5 &&& 224) >>> 5), b5 &&& 31,
     (b6 &&& 248) >>> 3, ((b6 &&& 7) <<< 2) ||| ((b7 &&& 192) >>> 6),
     (b7 &&& 62) >>> 1, ((b7 &&& 1) <<< 4) ||| ((b8 &&& 240) >>> 4),
     ((b8 &&& 15) <<< 1) ||| ((b9 &&& 128) >>> 7), (b9 &&& 124) >>> 2,
     ((b9 &&& 3) <<< 3) ||| ((b10 &&& 224) >>> 5), b10 &&& 31,
     (b11 &&& 248) >>> 3, ((b11 &&& 7) <<< 2) ||| ((b12 &&& 192) >>> 6),
     (b12 &&& 62) >>> 1, ((b12 &&& 1) <<< 4) ||| ((b13 &&& 240) >>> 4),
     ((b13 &&& 15) <<< 1) ||| ((b14 &&& 128) >>> 7), (b14 &&& 124) >>> 2,
     ((b14 &&& 3) <<< 3) ||| ((b15 &&& 224) >>> 5), b15 &&& 31]
  | _ => []

/-- `ulidTag.String`: the 26-character lexically sortable encoding, as the
list of its byte values. -/
def ulidString (id : List Nat) : List Nat := (ulidGroups id).map encAt

/-- The six timestamp bytes written by `newUlid`
(`byte(ms >> 40)` … `byte(ms)`). -/
def tsBytes (ms : Nat) : List Nat :=
  [ms >>> 40 % 256, ms >>> 32 % 256, ms >>> 24 % 256, ms >>> 16 % 256,
   ms >>> 8 % 256, ms % 256]

/-- State of `MonotonicEntropy` (`ms`, the 10 `entropy` bytes, `isZero`).
The buffered random reader is modelled as per-call oracle inputs. -/
structure MonotonicEntropy where
  ms : Nat
  entropy : List Nat
  isZero : Bool
deriving DecidableEq

/-- The state `monotonic(rand.Reader, 0)` starts in (`isZero = true`, the
array fields at Go zero values). -/
def monotonicInit : MonotonicEntropy :=
  { ms := 0, entropy := List.replicate 10 0, isZero := true }

/-- The big-endian add-with-carry loop of `MonotonicEntropy.increment`:
`i` runs from 9 down to 2, each step adds the low byte of the remaining
increment plus the carry into `entropy[i]`, and the loop breaks early once
the remaining increment and the carry are both zero.  Returns the updated
bytes and the final `i`, remaining increment and carry. -/
def incLoop : Nat → List Nat → Nat → Nat → List Nat × Nat × Nat × Nat
  | 0, e, inc, carry => (e, 0, inc, carry)
  | 1, e, inc, carry => (e, 1, inc, carry)
  | i + 2, e, inc, carry =>
    if inc / 256 = 0 ∧ (e.getD (i + 2) 0 + inc % 256 + carry) / 256 = 0 then
      (e.set (i + 2) ((e.getD (i + 2) 0 + inc % 256 + carry) % 256), i + 1,
        inc / 256, (e.getD (i + 2) 0 + inc % 256 + carry) / 256)
    else
      incLoop (i + 1) (e.set (i + 2) ((e.getD (i + 2) 0 + inc % 256 + carry) % 256))
        (inc / 256) ((e.getD (i + 2) 0 + inc % 256 + carry) / 256)

/-- `MonotonicEntropy.increment`: add the drawn increment to the 10-byte
big-endian entropy value; if the top two bytes would exceed `MaxUint16` the
addition has overflowed past 80 bits and `ErrMonotonicOverflow` is
returned. -/
def increment (e : List Nat) (inc : Nat) : Except UlidErr (List Nat) :=
  match incLoop 9 e inc 0 with
  | (e1, i, inc1, carry) =>
    if i < 2 ∧ (inc1 > 0 ∨ carry > 0) then
      if e1.getD 0 0 * 256 + e1.getD 1 0 + inc1 + carry > 65535 then
        Except.error UlidErr.monotonicOverflow
      else
        Except.ok ((e1.set 0 ((e1.getD 0 0 * 256 + e1.getD 1 0 + inc1 + carry) / 256)).set 1
          ((e1.getD 0 0 * 256 + e1.getD 1 0 + inc1 + carry) % 256))
    else Except.ok e1

/-- `MonotonicEntropy.MonotonicRead`: same millisecond increments the stored
entropy, a new millisecond stores the freshly drawn bytes.  `fresh` is the
oracle's answer for `io.ReadFull`, `inc` the oracle's answer for
`m.random()` (uniform in `[1, 2^32]` for the default increment). -/
def MonotonicRead (m : MonotonicEntropy) (ms : Nat) (fresh : List Nat)
    (inc : Nat) : Except UlidErr (List Nat × MonotonicEntropy) :=
  if m.isZero = false ∧ m.ms = ms then
    match increment m.entropy inc with
    | Except.error e => Except.error e
    | Except.ok e1 => Except.ok (e1, { m with entropy := e1 })
  else
    Except.ok (fresh, { ms := ms, entropy := fresh, isZero := false })

/-- `newUlid`: reject times beyond 48 bits, then concatenate the six
timestamp bytes with the ten entropy bytes delivered by `MonotonicRead`. -/
def newUlid (ms : Nat) (m : MonotonicEntropy) (fresh : List Nat) (inc : Nat) :
    Except UlidErr (List Nat × MonotonicEntropy) :=
  if ms > maxTime then Except.error UlidErr.bigTime
  else
    match MonotonicRead m ms fresh inc with
    | Except.error e => Except.error e
    | Except.ok (p, m') => Except.ok (tsBytes ms ++ p, m')

/-- A run of `NewULID` calls: each call draws `(ms, fresh, inc)` — the
millisecond clock reading and the randomness oracle's answers — and yields
the byte values of `mustNew(...).String()`.  A failing call panics in Go
(`mustNew`), so the run stops there. -/
def runULID (m : MonotonicEntropy) : List (Nat × List Nat × Nat) → List (List Nat)
  | [] => []
  | (ms, fresh, inc) :: rest =>
    match newUlid ms m fresh inc with
    | Except.error _ => []
    | Except.ok (id, m') => ulidString id :: runULID m' rest

/-! ### Lexicographic order versus numeric value -/

/-- Lexicographic `≤` on byte lists (Go string comparison; the compared
lists always have equal length here). -/
def lexLe : List Nat → List Nat → Bool
  | [], _ => true
  | _ :: _, [] => false
  | a :: as, b :: bs => if a < b then true else if a = b then lexLe as bs else false

/-- Big-endian value of a digit list in base `B`, starting from `acc`. -/
def valB (B : Nat) : Nat → List Nat → Nat
  | acc, [] => acc
  | acc, d :: l => valB B (acc * B + d) l

theorem valB_append (B : Nat) (l1 l2 : List Nat) :
    ∀ acc, valB B acc (l1 ++ l2) = valB B (valB B acc l1) l2 := by
  induction l1 with
  | nil => intro acc; rfl
  | cons d l ih => intro acc; rw [List.cons_append, valB, ih, valB]

theorem valB_acc (B : Nat) :
    ∀ (l : List Nat) (acc : Nat), valB B acc l = acc * B ^ l.length + valB B 0 l := by
  intro l
  induction l with
  | nil => intro acc; simp [valB]
  | cons d l ih =>
    intro acc
    have hA := ih (acc * B + d)
    have hB := ih (0 * B + d)
    rw [valB, hA, valB, hB]
    simp only [List.length_cons, Nat.pow_succ]
    ring

theorem valB_lt (B : Nat) (hB : 0 < B) :
    ∀ (l : List Nat), (∀ x ∈ l, x < B) → valB B 0 l < B ^ l.length := by
  intro l
  induction l with
  | nil => intro _; simpa [valB] using Nat.one_pos
  | cons d l ih =>
    intro h
    have hd : d < B := h d (by simp)
    have hl : valB B 0 l < B ^ l.length := ih (fun x hx => h x (by simp [hx]))
    rw [valB, valB_acc, List.length_cons, Nat.pow_succ]
    calc (0 * B + d) * B ^ l.length + valB B 0 l
        < (0 * B + d) * B ^ l.length + B ^ l.length := by omega
      _ = (d + 1) * B ^ l.length := by ring
      _ ≤ B * B ^ l.length := Nat.mul_le_mul_right _ (by omega)
      _ = B ^ l.length * B := Nat.mul_comm _ _

/-- On equal-length lists of digits below the base, lexicographic order
coincides with numeric order. -/
theorem lexLe_iff_val (B : Nat) :
    ∀ (l1 l2 : List Nat), l1.length = l2.length → (∀ x ∈ l1, x < B) →
    (∀ x ∈ l2, x < B) → (lexLe l1 l2 = true ↔ valB B 0 l1 ≤ valB B 0 l2) := by
  intro l1
  induction l1 with
  | nil =>
    intro l2 hlen _ _
    match l2, hlen with
    | [], _ => simp [lexLe, valB]
  | cons a as ih =>
    intro l2 hlen h1 h2
    match l2, hlen with
    | b :: bs, hlen =>
      have hlen' : as.length = bs.length := by simpa using hlen
      have ha : a < B := h1 a (by simp)
      have hb : b < B := h2 b (by simp)
      have h1' : ∀ x ∈ as, x < B := fun x hx => h1 x (by simp [hx])
      have h2' : ∀ x ∈ bs, x < B := fun x hx => h2 x (by simp [hx])
      have hv1 : valB B 0 as < B ^ as.length := valB_lt B (by omega) as h1'
      have hv2 : valB B 0 bs < B ^ bs.length := valB_lt B (by omega) bs h2'
      rw [lexLe, valB, valB, valB_acc, valB_acc B bs, hlen']
      rcases Nat.lt_trichotomy a b with hab | hab | hab
      · rw [if_pos hab]
        refine iff_of_true rfl ?_
        calc (0 * B + a) * B ^ bs.length + valB B 0 as
            ≤ (0 * B + a) * B ^ bs.length + B ^ bs.length := by
              rw [hlen'] at hv1; omega
          _ = (a + 1) * B ^ bs.length := by ring
          _ ≤ b * B ^ bs.length := Nat.mul_le_mul_right _ (by omega)
          _ ≤ (0 * B + b) * B ^ bs.length + valB B 0 bs := by
              have hz : (0 * B + b) * B ^ bs.length = b * B ^ bs.length := by ring
              omega
      · subst hab
        rw [if_neg (by omega), if_pos rfl, ih bs hlen' h1' h2']
        omega
      · rw [if_neg (by omega), if_neg (by omega)]
        refine iff_of_false (by simp) (Nat.not_le.mpr ?_)
        calc (0 * B + b) * B ^ bs.length + valB B 0 bs
            < (0 * B + b) * B ^ bs.length + B ^ bs.length := by omega
          _ = (b + 1) * B ^ bs.length := by ring
          _ ≤ a * B ^ bs.length := Nat.mul_le_mul_right _ (by omega)
          _ ≤ (0 * B + a) * B ^ bs.length + valB B 0 as := by
              have hz : (0 * B + a) * B ^ bs.length = a * B ^ bs.length := by ring
              omega

/-! ### The bit-slice expressions of `ulidTag.String`, arithmetically -/

theorem slice224 : ∀ x, x < 256 → (x &&& 224) >>> 5 = x / 32 := by decide

theorem slice31 : ∀ x, x < 256 → x &&& 31 = x % 32 := by decide

theorem slice248 : ∀ x, x < 256 → (x &&& 248) >>> 3 = x / 8 := by decide

theorem slice7 : ∀ x, x < 256 → (x &&& 7) <<< 2 = x % 8 * 4 := by decide

theorem slice192 : ∀ x, x < 256 → (x &&& 192) >>> 6 = x / 64 := by decide

theorem slice62 : ∀ x, x < 256 → (x &&& 62) >>> 1 = x / 2 % 32 := by decide

theorem slice1 : ∀ x, x < 256 → (x &&& 1) <<< 4 = x % 2 * 16 := by decide

theorem slice240 : ∀ x, x < 256 → (x &&& 240) >>> 4 = x / 16 := by decide

theorem slice15 : ∀ x, x < 256 → (x &&& 15) <<< 1 = x % 16 * 2 := by decide

theorem slice128 : ∀ x, x < 256 → (x &&& 128) >>> 7 = x / 128 := by decide

theorem slice124 : ∀ x, x < 256 → (x &&& 124) >>> 2 = x / 4 % 32 := by decide

theorem slice3 : ∀ x, x < 256 → (x &&& 3) <<< 3 = x % 4 * 8 := by decide

theorem sliceOr1 {x y : Nat} (hx : x < 256) (hy : y < 256) :
    ((x &&& 7) <<< 2) ||| ((y &&& 192) >>> 6) = x % 8 * 4 + y / 64 := by
  rw [slice7 x hx, slice192 y hy]
  exact lor_eq_add 2 (by omega) (by omega)

theorem sliceOr2 {x y : Nat} (hx : x < 256) (hy : y < 256) :
    ((x &&& 1) <<< 4) ||| ((y &&& 240) >>> 4) = x % 2 * 16 + y / 16 := by
  rw [slice1 x hx, slice240 y hy]
  exact lor_eq_add 4 (by omega) (by omega)

theorem sliceOr3 {x y : Nat} (hx : x < 256) (hy : y < 256) :
    ((x &&& 15) <<< 1) ||| ((y &&& 128) >>> 7) = x % 16 * 2 + y / 128 := by
  rw [slice15 x hx, slice128 y hy]
  exact lor_eq_add 1 (by omega) (by omega)

theorem sliceOr4 {x y : Nat} (hx : x < 256) (hy : y < 256) :
    ((x &&& 3) <<< 3) ||| ((y &&& 224) >>> 5) = x % 4 * 8 + y / 32 := by
  rw [slice3 x hx, slice224 y hy]
  exact lor_eq_add 3 (by omega) (by omega)

/-- The 26 group values of `ulidTag.String`, rewritten from bit slicing to
division/remainder arithmetic. -/
theorem ulidGroups_arith {b0 b1 b2 b3 b4 b5 b6 b7 b8 b9 b10 b11 b12 b13 b14 b15 : Nat}
    (h0 : b0 < 256) (h1 : b1 < 256) (h2 : b2 < 256) (h3 : b3 < 256)
    (h4 : b4 < 256) (h5 : b5 < 256) (h6 : b6 < 256) (h7 : b7 < 256)
    (h8 : b8 < 256) (h9 : b9 < 256) (h10 : b10 < 256) (h11 : b11 < 256)
    (h12 : b12 < 256) (h13 : b13 < 256) (h14 : b14 < 256) (h15 : b15 < 256) :
    ulidGroups [b0, b1, b2, b3, b4, b5, b6, b7, b8, b9, b10, b11, b12, b13, b14, b15] =
    [b0 / 32, b0 % 32,
     b1 / 8, b1 % 8 * 4 + b2 / 64, b2 / 2 % 32, b2 % 2 * 16 + b3 / 16,
     b3 % 16 * 2 + b4 / 128, b4 / 4 % 32, b4 % 4 * 8 + b5 / 32, b5 % 32,
     b6 / 8, b6 % 8 * 4 + b7 / 64, b7 / 2 % 32, b7 % 2 * 16 + b8 / 16,
     b8 % 16 * 2 + b9 / 128, b9 / 4 % 32, b9 % 4 * 8 + b10 / 32, b10 % 32,
     b11 / 8, b11 % 8 * 4 + b12 / 64, b12 / 2 % 32, b12 % 2 * 16 + b13 / 16,
     b13 % 16 * 2 + b14 / 128, b14 / 4 % 32, b14 % 4 * 8 + b15 / 32, b15 % 32] := by
  rw [ulidGroups, slice224 b0 h0, slice31 b0 h0, slice248 b1 h1, sliceOr1 h1 h2,
    slice62 b2 h2, sliceOr2 h2 h3, sliceOr3 h3 h4, slice124 b4 h4, sliceOr4 h4 h5,
    slice31 b5 h5, slice248 b6 h6, sliceOr1 h6 h7, slice62 b7 h7, sliceOr2 h7 h8,
    sliceOr3 h8 h9, slice124 b9 h9, sliceOr4 h9 h10, slice31 b10 h10,
    slice248 b11 h11, sliceOr1 h11 h12, slice62 b12 h12, sliceOr2 h12 h13,
    sliceOr3 h13 h14, slice124 b14 h14, sliceOr4 h14 h15, slice31 b15 h15]

/-- Every group value is a five-bit quantity. -/
theorem ulidGroups_lt {b0 b1 b2 b3 b4 b5 b6 b7 b8 b9 b10 b11 b12 b13 b14 b15 : Nat}
    (h0 : b0 < 256) (h1 : b1 < 256) (h2 : b2 < 256) (h3 : b3 < 256)
    (h4 : b4 < 256) (h5 : b5 < 256) (h6 : b6 < 256) (h7 : b7 < 256)
    (h8 : b8 < 256) (h9 : b9 < 256) (h10 : b10 < 256) (h11 : b11 < 256)
    (h12 : b12 < 256) (h13 : b13 < 256) (h14 : b14 < 256) (h15 : b15 < 256) :
    ∀ g ∈ ulidGroups [b0, b1, b2, b3, b4, b5, b6, b7, b8, b9, b10, b11, b12,
      b13, b14, b15], g < 32 := by
  rw [ulidGroups_arith h0 h1 h2 h3 h4 h5 h6 h7 h8 h9 h10 h11 h12 h13 h14 h15]
  intro g hg
  simp only [List.mem_cons, List.not_mem_nil, or_false] at hg
  rcases hg with rfl | rfl | rfl | rfl | rfl | rfl | rfl | rfl | rfl | rfl | rfl |
    rfl | rfl | rfl | rfl | rfl | rfl | rfl | rfl | rfl | rfl | rfl | rfl | rfl |
    rfl | rfl
  all_goals omega

/-- Reading the 26 groups as base-32 digits yields the same number as reading
the 16 bytes as base-256 digits. -/
theorem ulid_val_eq {b0 b1 b2 b3 b4 b5 b6 b7 b8 b9 b10 b11 b12 b13 b14 b15 : Nat}
    (h0 : b0 < 256) (h1 : b1 < 256) (h2 : b2 < 256) (h3 : b3 < 256)
    (h4 : b4 < 256) (h5 : b5 < 256) (h6 : b6 < 256) (h7 : b7 < 256)
    (h8 : b8 < 256) (h9 : b9 < 256) (h10 : b10 < 256) (h11 : b11 < 256)
    (h12 : b12 < 256) (h13 : b13 < 256) (h14 : b14 < 256) (h15 : b15 < 256) :
    valB 32 0 (ulidGroups [b0, b1, b2, b3, b4, b5, b6, b7, b8, b9, b10, b11,
      b12, b13, b14, b15]) =
    valB 256 0 [b0, b1, b2, b3, b4, b5, b6, b7, b8, b9, b10, b11, b12, b13,
      b14, b15] := by
  rw [ulidGroups_arith h0 h1 h2 h3 h4 h5 h6 h7 h8 h9 h10 h11 h12 h13 h14 h15]
  simp only [valB]
  omega

/-! ### The alphabet is strictly increasing -/

theorem encAt_lt_iff : ∀ a, a < 32 → ∀ b, b < 32 → ((encAt a < encAt b) ↔ a < b) := by
  decide

theorem encAt_eq_iff : ∀ a, a < 32 → ∀ b, b < 32 → ((encAt a = encAt b) ↔ a = b) := by
  decide

theorem encAt_mem : ∀ g, g < 32 → encAt g ∈ encoding := by decide

/-- Mapping five-bit groups through the (strictly increasing) alphabet
preserves lexicographic comparison. -/
theorem lexLe_map_encAt : ∀ (l1 l2 : List Nat), (∀ x ∈ l1, x < 32) →
    (∀ x ∈ l2, x < 32) → lexLe (l1.map encAt) (l2.map encAt) = lexLe l1 l2 := by
  intro l1
  induction l1 with
  | nil => intro l2 _ _; cases l2 <;> rfl
  | cons a as ih =>
    intro l2 h1 h2
    cases l2 with
    | nil => rfl
    | cons b bs =>
      have ha : a < 32 := h1 a (by simp)
      have hb : b < 32 := h2 b (by simp)
      simp only [List.map_cons, lexLe]
      by_cases hab : a < b
      · rw [if_pos ((encAt_lt_iff a ha b hb).mpr hab), if_pos hab]
      · rw [if_neg (fun hc => hab ((encAt_lt_iff a ha b hb).mp hc)), if_neg hab]
        by_cases heq : a = b
        · rw [if_pos ((encAt_eq_iff a ha b hb).mpr heq), if_pos heq,
            ih bs (fun x hx => h1 x (by simp [hx])) (fun x hx => h2 x (by simp [hx]))]
        · rw [if_neg (fun hc => heq ((encAt_eq_iff a ha b hb).mp hc)), if_neg heq]

/-- A list of length 16 is a 16-element literal. -/
theorem list_eq_16 (l : List Nat) (h : l.length = 16) :
    ∃ x0 x1 x2 x3 x4 x5 x6 x7 x8 x9 x10 x11 x12 x13 x14 x15,
      l = [x0, x1, x2, x3, x4, x5, x6, x7, x8, x9, x10, x11, x12, x13, x14, x15] := by
  match l, h with
  | [x0, x1, x2, x3, x4, x5, x6, x7, x8, x9, x10, x11, x12, x13, x14, x15], _ =>
    exact ⟨x0, x1, x2, x3, x4, x5, x6, x7, x8, x9, x10, x11, x12, x13, x14, x15, rfl⟩

/-- A list of length 10 is a 10-element literal. -/
theorem list_eq_10 (l : List Nat) (h : l.length = 10) :
    ∃ x0 x1 x2 x3 x4 x5 x6 x7 x8 x9,
      l = [x0, x1, x2, x3, x4, x5, x6, x7, x8, x9] := by
  match l, h with
  | [x0, x1, x2, x3, x4, x5, x6, x7, x8, x9], _ =>
    exact ⟨x0, x1, x2, x3, x4, x5, x6, x7, x8, x9, rfl⟩

/-- Byte-for-byte comparison of two 16-byte identifiers agrees with
lexicographic comparison of their 26-character string encodings. -/
theorem ulid_lex_iff (a b : List Nat) (hal : a.length = 16) (hbl : b.length = 16)
    (ha : ∀ x ∈ a, x < 256) (hb : ∀ x ∈ b, x < 256) :
    (lexLe a b = true ↔ lexLe (ulidString a) (ulidString b) = true) := by
  obtain ⟨a0, a1, a2, a3, a4, a5, a6, a7, a8, a9, a10, a11, a12, a13, a14, a15, rfl⟩ :=
    list_eq_16 a hal
  obtain ⟨b0, b1, b2, b3, b4, b5, b6, b7, b8, b9, b10, b11, b12, b13, b14, b15, rfl⟩ :=
    list_eq_16 b hbl
  simp only [List.mem_cons, List.not_mem_nil, or_false, forall_eq_or_imp, forall_eq]
    at ha hb
  obtain ⟨ha0, ha1, ha2, ha3, ha4, ha5, ha6, ha7, ha8, ha9, ha10, ha11, ha12, ha13,
    ha14, ha15⟩ := ha
  obtain ⟨hb0, hb1, hb2, hb3, hb4, hb5, hb6, hb7, hb8, hb9, hb10, hb11, hb12, hb13,
    hb14, hb15⟩ := hb
  have hga := ulidGroups_lt ha0 ha1 ha2 ha3 ha4 ha5 ha6 ha7 ha8 ha9 ha10 ha11 ha12
    ha13 ha14 ha15
  have hgb := ulidGroups_lt hb0 hb1 hb2 hb3 hb4 hb5 hb6 hb7 hb8 hb9 hb10 hb11 hb12
    hb13 hb14 hb15
  rw [ulidString, ulidString, lexLe_map_encAt _ _ hga hgb,
    lexLe_iff_val 256 [a0, a1, a2, a3, a4, a5, a6, a7, a8, a9, a10, a11, a12, a13, a14, a15]
      [b0, b1, b2, b3, b4, b5, b6, b7, b8, b9, b10, b11, b12, b13, b14, b15]
      rfl (by simp_all) (by simp_all),
    lexLe_iff_val 32
      (ulidGroups [a0, a1, a2, a3, a4, a5, a6, a7, a8, a9, a10, a11, a12, a13, a14, a15])
      (ulidGroups [b0, b1, b2, b3, b4, b5, b6, b7, b8, b9, b10, b11, b12, b13, b14, b15])
      rfl hga hgb,
    ulid_val_eq ha0 ha1 ha2 ha3 ha4 ha5 ha6 ha7 ha8 ha9 ha10 ha11 ha12 ha13 ha14 ha15,
    ulid_val_eq hb0 hb1 hb2 hb3 hb4 hb5 hb6 hb7 hb8 hb9 hb10 hb11 hb12 hb13 hb14 hb15]

/-! ### Claim theorems C6 and C9 -/

/-- **C6.** The 26-character base-32 encoding is order preserving: for any two
16-byte identifier values, big-endian byte-for-byte order holds iff the
lexicographic order of the encoded strings holds. -/
theorem ulidString_order_preserving (a b : List Nat) (hal : a.length = 16)
    (hbl : b.length = 16) (ha : ∀ x ∈ a, x < 256) (hb : ∀ x ∈ b, x < 256) :
    (lexLe a b = true ↔ lexLe (ulidString a) (ulidString b) = true) :=
  ulid_lex_iff a b hal hbl ha hb

/-- Witness for `ulidString_order_preserving` on two concrete identifiers. -/
theorem ulidString_order_preserving_witness :
    (lexLe [1, 2, 3, 4, 5, 6, 7, 8, 9, 10, 11, 12, 13, 14, 15, 16]
        [1, 2, 3, 4, 5, 6, 7, 8, 9, 10, 11, 12, 13, 14, 255, 0] = true ↔
      lexLe (ulidString [1, 2, 3, 4, 5, 6, 7, 8, 9, 10, 11, 12, 13, 14, 15, 16])
        (ulidString [1, 2, 3, 4, 5, 6, 7, 8, 9, 10, 11, 12, 13, 14, 255, 0]) = true) :=
  ulidString_order_preserving _ _ rfl rfl (by decide) (by decide)

/-! ### Characterisation of `MonotonicEntropy.increment` -/

/-- `incLoop` at index 1 terminates (loop condition fails). -/
theorem incLoop_unfold_1 (e : List Nat) (inc carry : Nat) :
    incLoop 1 e inc carry = (e, 1, inc, carry) := rfl

/-- One unfolding of `incLoop` at index 2. -/
theorem incLoop_unfold_2 (x0 x1 x2 x3 x4 x5 x6 x7 x8 x9 inc carry : Nat) :
    incLoop 2 [x0, x1, x2, x3, x4, x5, x6, x7, x8, x9] inc carry =
      (if inc / 256 = 0 ∧ (x2 + inc % 256 + carry) / 256 = 0 then
        ([x0, x1, (x2 + inc % 256 + carry) % 256, x3, x4, x5, x6, x7, x8, x9], 1, inc / 256, (x2 + inc % 256 + carry) / 256)
      else incLoop 1 [x0, x1, (x2 + inc % 256 + carry) % 256, x3, x4, x5, x6, x7, x8, x9] (inc / 256) ((x2 + inc % 256 + carry) / 256)) := rfl

/-- One unfolding of `incLoop` at index 3. -/
theorem incLoop_unfold_3 (x0 x1 x2 x3 x4 x5 x6 x7 x8 x9 inc carry : Nat) :
    incLoop 3 [x0, x1, x2, x3, x4, x5, x6, x7, x8, x9] inc carry =
      (if inc / 256 = 0 ∧ (x3 + inc % 256 + carry) / 256 = 0 then
        ([x0, x1, x2, (x3 + inc % 256 + carry) % 256, x4, x5, x6, x7, x8, x9], 2, inc / 256, (x3 + inc % 256 + carry) / 256)
      else incLoop 2 [x0, x1, x2, (x3 + inc % 256 + carry) % 256, x4, x5, x6, x7, x8, x9] (inc / 256) ((x3 + inc % 256 + carry) / 256)) := rfl

/-- One unfolding of `incLoop` at index 4. -/
theorem incLoop_unfold_4 (x0 x1 x2 x3 x4 x5 x6 x7 x8 x9 inc carry : Nat) :
    incLoop 4 [x0, x1, x2, x3, x4, x5, x6, x7, x8, x9] inc carry =
      (if inc / 256 = 0 ∧ (x4 + inc % 256 + carry) / 256 = 0 then
        ([x0, x1, x2, x3, (x4 + inc % 256 + carry) % 256, x5, x6, x7, x8, x9], 3, inc / 256, (x4 + inc % 256 + carry) / 256)
      else incLoop 3 [x0, x1, x2, x3, (x4 + inc % 256 + carry) % 256, x5, x6, x7, x8, x9] (inc / 256) ((x4 + inc % 256 + carry) / 256)) := rfl

/-- One unfolding of `incLoop` at index 5. -/
theorem incLoop_unfold_5 (x0 x1 x2 x3 x4 x5 x6 x7 x8 x9 inc carry : Nat) :
    incLoop 5 [x0, x1, x2, x3, x4, x5, x6, x7, x8, x9] inc carry =
      (if inc / 256 = 0 ∧ (x5 + inc % 256 + carry) / 256 = 0 then
        ([x0, x1, x2, x3, x4, (x5 + inc % 256 + carry) % 256, x6, x7, x8, x9], 4, inc / 256, (x5 + inc % 256 + carry) / 256)
      else incLoop 4 [x0, x1, x2, x3, x4, (x5 + inc % 256 + carry) % 256, x6, x7, x8, x9] (inc / 256) ((x5 + inc % 256 + carry) / 256)) := rfl

/-- One unfolding of `incLoop` at index 6. -/
theorem incLoop_unfold_6 (x0 x1 x2 x3 x4 x5 x6 x7 x8 x9 inc carry : Nat) :
    incLoop 6 [x0, x1, x2, x3, x4, x5, x6, x7, x8, x9] inc carry =
      (if inc / 256 = 0 ∧ (x6 + inc % 256 + carry) / 256 = 0 then
        ([x0, x1, x2, x3, x4, x5, (x6 + inc % 256 + carry) % 256, x7, x8, x9], 5, inc / 256, (x6 + inc % 256 + carry) / 256)
      else incLoop 5 [x0, x1, x2, x3, x4, x5, (x6 + inc % 256 + carry) % 256, x7, x8, x9] (inc / 256) ((x6 + inc % 256 + carry) / 256)) := rfl

/-- One unfolding of `incLoop` at index 7. -/
theorem incLoop_unfold_7 (x0 x1 x2 x3 x4 x5 x6 x7 x8 x9 inc carry : Nat) :
    incLoop 7 [x0, x1, x2, x3, x4, x5, x6, x7, x8, x9] inc carry =
      (if inc / 256 = 0 ∧ (x7 + inc % 256 + carry) / 256 = 0 then
        ([x0, x1, x2, x3, x4, x5, x6, (x7 + inc % 256 + carry) % 256, x8, x9], 6, inc / 256, (x7 + inc % 256 + carry) / 256)
      else incLoop 6 [x0, x1, x2, x3, x4, x5, x6, (x7 + inc % 256 + carry) % 256, x8, x9] (inc / 256) ((x7 + inc % 256 + carry) / 256)) := rfl

/-- One unfolding of `incLoop` at index 8. -/
theorem incLoop_unfold_8 (x0 x1 x2 x3 x4 x5 x6 x7 x8 x9 inc carry : Nat) :
    incLoop 8 [x0, x1, x2, x3, x4, x5, x6, x7, x8, x9] inc carry =
      (if inc / 256 = 0 ∧ (x8 + inc % 256 + carry) / 256 = 0 then
        ([x0, x1, x2, x3, x4, x5, x6, x7, (x8 + inc % 256 + carry) % 256, x9], 7, inc / 256, (x8 + inc % 256 + carry) / 256)
      else incLoop 7 [x0, x1, x2, x3, x4, x5, x6, x7, (x8 + inc % 256 + carry) % 256, x9] (inc / 256) ((x8 + inc % 256 + carry) / 256)) := rfl

/-- One unfolding of `incLoop` at index 9. -/
theorem incLoop_unfold_9 (x0 x1 x2 x3 x4 x5 x6 x7 x8 x9 inc carry : Nat) :
    incLoop 9 [x0, x1, x2, x3, x4, x5, x6, x7, x8, x9] inc carry =
      (if inc / 256 = 0 ∧ (x9 + inc % 256 + carry) / 256 = 0 then
        ([x0, x1, x2, x3, x4, x5, x6, x7, x8, (x9 + inc % 256 + carry) % 256], 8, inc / 256, (x9 + inc % 256 + carry) / 256)
      else incLoop 8 [x0, x1, x2, x3, x4, x5, x6, x7, x8, (x9 + inc % 256 + carry) % 256] (inc / 256) ((x9 + inc % 256 + carry) / 256)) := rfl

/-- Closed form of `incLoop` from index 2: the low bytes hold the exact
big-endian sum, with a carry flag when it exceeds the field. -/
theorem incLoop_spec_2 (x0 x1 x2 x3 x4 x5 x6 x7 x8 x9 : Nat)
    (h0 : x0 < 256) (h1 : x1 < 256) (h2 : x2 < 256) (h3 : x3 < 256) (h4 : x4 < 256) (h5 : x5 < 256) (h6 : x6 < 256) (h7 : x7 < 256) (h8 : x8 < 256) (h9 : x9 < 256)
    (inc carry : Nat) (hinc : inc < 256 ^ 1) (hcarry : carry ≤ 1) :
    ∀ T, T = x2 + inc + carry →
    (T < 256 ^ 1 → ∃ j, incLoop 2 [x0, x1, x2, x3, x4, x5, x6, x7, x8, x9] inc carry =
      ([x0, x1, T % 256, x3, x4, x5, x6, x7, x8, x9], j, 0, 0)) ∧
    (256 ^ 1 ≤ T → incLoop 2 [x0, x1, x2, x3, x4, x5, x6, x7, x8, x9] inc carry =
      ([x0, x1, T % 256, x3, x4, x5, x6, x7, x8, x9], 1, 0, 1)) := by
  intro T hT
  rw [incLoop_unfold_2]
  by_cases hbr : inc / 256 = 0 ∧ (x2 + inc % 256 + carry) / 256 = 0
  · rw [if_pos hbr]
    obtain ⟨hbr1, hbr2⟩ := hbr
    constructor
    · intro hcase
      refine ⟨1, ?_⟩
      simp only [Prod.mk.injEq, List.cons.injEq, and_true, true_and]
      omega
    · intro hcase
      exfalso
      omega
  · rw [if_neg hbr]
    rw [incLoop_unfold_1]
    rw [not_and_or] at hbr
    constructor
    · intro hcase
      exfalso
      rcases hbr with h | h <;> omega
    · intro hcase
      simp only [Prod.mk.injEq, List.cons.injEq, and_true, true_and]
      omega

/-- Closed form of `incLoop` from index 3: the low bytes hold the exact
big-endian sum, with a carry flag when it exceeds the field. -/
theorem incLoop_spec_3 (x0 x1 x2 x3 x4 x5 x6 x7 x8 x9 : Nat)
    (h0 : x0 < 256) (h1 : x1 < 256) (h2 : x2 < 256) (h3 : x3 < 256) (h4 : x4 < 256) (h5 : x5 < 256) (h6 : x6 < 256) (h7 : x7 < 256) (h8 : x8 < 256) (h9 : x9 < 256)
    (inc carry : Nat) (hinc : inc < 256 ^ 2) (hcarry : carry ≤ 1) :
    ∀ T, T = x2 * 256 + x3 + inc + carry →
    (T < 256 ^ 2 → ∃ j, incLoop 3 [x0, x1, x2, x3, x4, x5, x6, x7, x8, x9] inc carry =
      ([x0, x1, T / 256 % 256, T % 256, x4, x5, x6, x7, x8, x9], j, 0, 0)) ∧
    (256 ^ 2 ≤ T → incLoop 3 [x0, x1, x2, x3, x4, x5, x6, x7, x8, x9] inc carry =
      ([x0, x1, T / 256 % 256, T % 256, x4, x5, x6, x7, x8, x9], 1, 0, 1)) := by
  intro T hT
  rw [incLoop_unfold_3]
  by_cases hbr : inc / 256 = 0 ∧ (x3 + inc % 256 + carry) / 256 = 0
  · rw [if_pos hbr]
    obtain ⟨hbr1, hbr2⟩ := hbr
    constructor
    · intro hcase
      refine ⟨2, ?_⟩
      simp only [Prod.mk.injEq, List.cons.injEq, and_true, true_and]
      omega
    · intro hcase
      exfalso
      omega
  · rw [if_neg hbr]
    have ih := incLoop_spec_2 x0 x1 x2 ((x3 + inc % 256 + carry) % 256) x4 x5 x6 x7 x8 x9
      h0 h1 h2 (by omega) h4 h5 h6 h7 h8 h9
      (inc / 256) ((x3 + inc % 256 + carry) / 256) (by omega) (by omega)
    obtain ⟨ih1, ih2⟩ :=
      ih (x2 + inc / 256 + (x3 + inc % 256 + carry) / 256) rfl
    constructor
    · intro hcase
      obtain ⟨j, hj⟩ := ih1 (by omega)
      refine ⟨j, ?_⟩
      rw [hj]
      simp only [Prod.mk.injEq, List.cons.injEq, and_true, true_and]
      omega
    · intro hcase
      rw [ih2 (by omega)]
      simp only [Prod.mk.injEq, List.cons.injEq, and_true, true_and]
      omega

/-- Closed form of `incLoop` from index 4: the low bytes hold the exact
big-endian sum, with a carry flag when it exceeds the field. -/
theorem incLoop_spec_4 (x0 x1 x2 x3 x4 x5 x6 x7 x8 x9 : Nat)
    (h0 : x0 < 256) (h1 : x1 < 256) (h2 : x2 < 256) (h3 : x3 < 256) (h4 : x4 < 256) (h5 : x5 < 256) (h6 : x6 < 256) (h7 : x7 < 256) (h8 : x8 < 256) (h9 : x9 < 256)
    (inc carry : Nat) (hinc : inc < 256 ^ 3) (hcarry : carry ≤ 1) :
    ∀ T, T = x2 * 256 ^ 2 + x3 * 256 + x4 + inc + carry →
    (T < 256 ^ 3 → ∃ j, incLoop 4 [x0, x1, x2, x3, x4, x5, x6, x7, x8, x9] inc carry =
      ([x0, x1, T / 256 ^ 2 % 256, T / 256 % 256, T % 256, x5, x6, x7, x8, x9], j, 0, 0)) ∧
    (256 ^ 3 ≤ T → incLoop 4 [x0, x1, x2, x3, x4, x5, x6, x7, x8, x9] inc carry =
      ([x0, x1, T / 256 ^ 2 % 256, T / 256 % 256, T % 256, x5, x6, x7, x8, x9], 1, 0, 1)) := by
  intro T hT
  rw [incLoop_unfold_4]
  by_cases hbr : inc / 256 = 0 ∧ (x4 + inc % 256 + carry) / 256 = 0
  · rw [if_pos hbr]
    obtain ⟨hbr1, hbr2⟩ := hbr
    constructor
    · intro hcase
      refine ⟨3, ?_⟩
      simp only [Prod.mk.injEq, List.cons.injEq, and_true, true_and]
      omega
    · intro hcase
      exfalso
      omega
  · rw [if_neg hbr]
    have ih := incLoop_spec_3 x0 x1 x2 x3 ((x4 + inc % 256 + carry) % 256) x5 x6 x7 x8 x9
      h0 h1 h2 h3 (by omega) h5 h6 h7 h8 h9
      (inc / 256) ((x4 + inc % 256 + carry) / 256) (by omega) (by omega)
    obtain ⟨ih1, ih2⟩ :=
      ih (x2 * 256 + x3 + inc / 256 + (x4 + inc % 256 + carry) / 256) rfl
    constructor
    · intro hcase
      obtain ⟨j, hj⟩ := ih1 (by omega)
      refine ⟨j, ?_⟩
      rw [hj]
      simp only [Prod.mk.injEq, List.cons.injEq, and_true, true_and]
      omega
    · intro hcase
      rw [ih2 (by omega)]
      simp only [Prod.mk.injEq, List.cons.injEq, and_true, true_and]
      omega

/-- Closed form of `incLoop` from index 5: the low bytes hold the exact
big-endian sum, with a carry flag when it exceeds the field. -/
theorem incLoop_spec_5 (x0 x1 x2 x3 x4 x5 x6 x7 x8 x9 : Nat)
    (h0 : x0 < 256) (h1 : x1 < 256) (h2 : x2 < 256) (h3 : x3 < 256) (h4 : x4 < 256) (h5 : x5 < 256) (h6 : x6 < 256) (h7 : x7 < 256) (h8 : x8 < 256) (h9 : x9 < 256)
    (inc carry : Nat) (hinc : inc < 256 ^ 4) (hcarry : carry ≤ 1) :
    ∀ T, T = x2 * 256 ^ 3 + x3 * 256 ^ 2 + x4 * 256 + x5 + inc + carry →
    (T < 256 ^ 4 → ∃ j, incLoop 5 [x0, x1, x2, x3, x4, x5, x6, x7, x8, x9] inc carry =
      ([x0, x1, T / 256 ^ 3 % 256, T / 256 ^ 2 % 256, T / 256 % 256, T % 256, x6, x7, x8, x9], j, 0, 0)) ∧
    (256 ^ 4 ≤ T → incLoop 5 [x0, x1, x2, x3, x4, x5, x6, x7, x8, x9] inc carry =
      ([x0, x1, T / 256 ^ 3 % 256, T / 256 ^ 2 % 256, T / 256 % 256, T % 256, x6, x7, x8, x9], 1, 0, 1)) := by
  intro T hT
  rw [incLoop_unfold_5]
  by_cases hbr : inc / 256 = 0 ∧ (x5 + inc % 256 + carry) / 256 = 0
  · rw [if_pos hbr]
    obtain ⟨hbr1, hbr2⟩ := hbr
    constructor
    · intro hcase
      refine ⟨4, ?_⟩
      simp only [Prod.mk.injEq, List.cons.injEq, and_true, true_and]
      omega
    · intro hcase
      exfalso
      omega
  · rw [if_neg hbr]
    have ih := incLoop_spec_4 x0 x1 x2 x3 x4 ((x5 + inc % 256 + carry) % 256) x6 x7 x8 x9
      h0 h1 h2 h3 h4 (by omega) h6 h7 h8 h9
      (inc / 256) ((x5 + inc % 256 + carry) / 256) (by omega) (by omega)
    obtain ⟨ih1, ih2⟩ :=
      ih (x2 * 256 ^ 2 + x3 * 256 + x4 + inc / 256 + (x5 + inc % 256 + carry) / 256) rfl
    constructor
    · intro hcase
      obtain ⟨j, hj⟩ := ih1 (by omega)
      refine ⟨j, ?_⟩
      rw [hj]
      simp only [Prod.mk.injEq, List.cons.injEq, and_true, true_and]
      omega
    · intro hcase
      rw [ih2 (by omega)]
      simp only [Prod.mk.injEq, List.cons.injEq, and_true, true_and]
      omega

/-- Closed form of `incLoop` from index 6: the low bytes hold the exact
big-endian sum, with a carry flag when it exceeds the field. -/
theorem incLoop_spec_6 (x0 x1 x2 x3 x4 x5 x6 x7 x8 x9 : Nat)
    (h0 : x0 < 256) (h1 : x1 < 256) (h2 : x2 < 256) (h3 : x3 < 256) (h4 : x4 < 256) (h5 : x5 < 256) (h6 : x6 < 256) (h7 : x7 < 256) (h8 : x8 < 256) (h9 : x9 < 256)
    (inc carry : Nat) (hinc : inc < 256 ^ 5) (hcarry : carry ≤ 1) :
    ∀ T, T = x2 * 256 ^ 4 + x3 * 256 ^ 3 + x4 * 256 ^ 2 + x5 * 256 + x6 + inc + carry →
    (T < 256 ^ 5 → ∃ j, incLoop 6 [x0, x1, x2, x3, x4, x5, x6, x7, x8, x9] inc carry =
      ([x0, x1, T / 256 ^ 4 % 256, T / 256 ^ 3 % 256, T / 256 ^ 2 % 256, T / 256 % 256, T % 256, x7, x8, x9], j, 0, 0)) ∧
    (256 ^ 5 ≤ T → incLoop 6 [x0, x1, x2, x3, x4, x5, x6, x7, x8, x9] inc carry =
      ([x0, x1, T / 256 ^ 4 % 256, T / 256 ^ 3 % 256, T / 256 ^ 2 % 256, T / 256 % 256, T % 256, x7, x8, x9], 1, 0, 1)) := by
  intro T hT
  rw [incLoop_unfold_6]
  by_cases hbr : inc / 256 = 0 ∧ (x6 + inc % 256 + carry) / 256 = 0
  · rw [if_pos hbr]
    obtain ⟨hbr1, hbr2⟩ := hbr
    constructor
    · intro hcase
      refine ⟨5, ?_⟩
      simp only [Prod.mk.injEq, List.cons.injEq, and_true, true_and]
      omega
    · intro hcase
      exfalso
      omega
  · rw [if_neg hbr]
    have ih := incLoop_spec_5 x0 x1 x2 x3 x4 x5 ((x6 + inc % 256 + carry) % 256) x7 x8 x9
      h0 h1 h2 h3 h4 h5 (by omega) h7 h8 h9
      (inc / 256) ((x6 + inc % 256 + carry) / 256) (by omega) (by omega)
    obtain ⟨ih1, ih2⟩ :=
      ih (x2 * 256 ^ 3 + x3 * 256 ^ 2 + x4 * 256 + x5 + inc / 256 + (x6 + inc % 256 + carry) / 256) rfl
    constructor
    · intro hcase
      obtain ⟨j, hj⟩ := ih1 (by omega)
      refine ⟨j, ?_⟩
      rw [hj]
      simp only [Prod.mk.injEq, List.cons.injEq, and_true, true_and]
      omega
    · intro hcase
      rw [ih2 (by omega)]
      simp only [Prod.mk.injEq, List.cons.injEq, and_true, true_and]
      omega

/-- Closed form of `incLoop` from index 7: the low bytes hold the exact
big-endian sum, with a carry flag when it exceeds the field. -/
theorem incLoop_spec_7 (x0 x1 x2 x3 x4 x5 x6 x7 x8 x9 : Nat)
    (h0 : x0 < 256) (h1 : x1 < 256) (h2 : x2 < 256) (h3 : x3 < 256) (h4 : x4 < 256) (h5 : x5 < 256) (h6 : x6 < 256) (h7 : x7 < 256) (h8 : x8 < 256) (h9 : x9 < 256)
    (inc carry : Nat) (hinc : inc < 256 ^ 6) (hcarry : carry ≤ 1) :
    ∀ T, T = x2 * 256 ^ 5 + x3 * 256 ^ 4 + x4 * 256 ^ 3 + x5 * 256 ^ 2 + x6 * 256 + x7 + inc + carry →
    (T < 256 ^ 6 → ∃ j, incLoop 7 [x0, x1, x2, x3, x4, x5, x6, x7, x8, x9] inc carry =
      ([x0, x1, T / 256 ^ 5 % 256, T / 256 ^ 4 % 256, T / 256 ^ 3 % 256, T / 256 ^ 2 % 256, T / 256 % 256, T % 256, x8, x9], j, 0, 0)) ∧
    (256 ^ 6 ≤ T → incLoop 7 [x0, x1, x2, x3, x4, x5, x6, x7, x8, x9] inc carry =
      ([x0, x1, T / 256 ^ 5 % 256, T / 256 ^ 4 % 256, T / 256 ^ 3 % 256, T / 256 ^ 2 % 256, T / 256 % 256, T % 256, x8, x9], 1, 0, 1)) := by
  intro T hT
  rw [incLoop_unfold_7]
  by_cases hbr : inc / 256 = 0 ∧ (x7 + inc % 256 + carry) / 256 = 0
  · rw [if_pos hbr]
    obtain ⟨hbr1, hbr2⟩ := hbr
    constructor
    · intro hcase
      refine ⟨6, ?_⟩
      simp only [Prod.mk.injEq, List.cons.injEq, and_true, true_and]
      omega
    · intro hcase
      exfalso
      omega
  · rw [if_neg hbr]
    have ih := incLoop_spec_6 x0 x1 x2 x3 x4 x5 x6 ((x7 + inc % 256 + carry) % 256) x8 x9
      h0 h1 h2 h3 h4 h5 h6 (by omega) h8 h9
      (inc / 256) ((x7 + inc % 256 + carry) / 256) (by omega) (by omega)
    obtain ⟨ih1, ih2⟩ :=
      ih (x2 * 256 ^ 4 + x3 * 256 ^ 3 + x4 * 256 ^ 2 + x5 * 256 + x6 + inc / 256 + (x7 + inc % 256 + carry) / 256) rfl
    constructor
    · intro hcase
      obtain ⟨j, hj⟩ := ih1 (by omega)
      refine ⟨j, ?_⟩
      rw [hj]
      simp only [Prod.mk.injEq, List.cons.injEq, and_true, true_and]
      omega
    · intro hcase
      rw [ih2 (by omega)]
      simp only [Prod.mk.injEq, List.cons.injEq, and_true, true_and]
      omega

/-- Closed form of `incLoop` from index 8: the low bytes hold the exact
big-endian sum, with a carry flag when it exceeds the field. -/
theorem incLoop_spec_8 (x0 x1 x2 x3 x4 x5 x6 x7 x8 x9 : Nat)
    (h0 : x0 < 256) (h1 : x1 < 256) (h2 : x2 < 256) (h3 : x3 < 256) (h4 : x4 < 256) (h5 : x5 < 256) (h6 : x6 < 256) (h7 : x7 < 256) (h8 : x8 < 256) (h9 : x9 < 256)
    (inc carry : Nat) (hinc : inc < 256 ^ 7) (hcarry : carry ≤ 1) :
    ∀ T, T = x2 * 256 ^ 6 + x3 * 256 ^ 5 + x4 * 256 ^ 4 + x5 * 256 ^ 3 + x6 * 256 ^ 2 + x7 * 256 + x8 + inc + carry →
    (T < 256 ^ 7 → ∃ j, incLoop 8 [x0, x1, x2, x3, x4, x5, x6, x7, x8, x9] inc carry =
      ([x0, x1, T / 256 ^ 6 % 256, T / 256 ^ 5 % 256, T / 256 ^ 4 % 256, T / 256 ^ 3 % 256, T / 256 ^ 2 % 256, T / 256 % 256, T % 256, x9], j, 0, 0)) ∧
    (256 ^ 7 ≤ T → incLoop 8 [x0, x1, x2, x3, x4, x5, x6, x7, x8, x9] inc carry =
      ([x0, x1, T / 256 ^ 6 % 256, T / 256 ^ 5 % 256, T / 256 ^ 4 % 256, T / 256 ^ 3 % 256, T / 256 ^ 2 % 256, T / 256 % 256, T % 256, x9], 1, 0, 1)) := by
  intro T hT
  rw [incLoop_unfold_8]
  by_cases hbr : inc / 256 = 0 ∧ (x8 + inc % 256 + carry) / 256 = 0
  · rw [if_pos hbr]
    obtain ⟨hbr1, hbr2⟩ := hbr
    constructor
    · intro hcase
      refine ⟨7, ?_⟩
      simp only [Prod.mk.injEq, List.cons.injEq, and_true, true_and]
      omega
    · intro hcase
      exfalso
      omega
  · rw [if_neg hbr]
    have ih := incLoop_spec_7 x0 x1 x2 x3 x4 x5 x6 x7 ((x8 + inc % 256 + carry) % 256) x9
      h0 h1 h2 h3 h4 h5 h6 h7 (by omega) h9
      (inc / 256) ((x8 + inc % 256 + carry) / 256) (by omega) (by omega)
    obtain ⟨ih1, ih2⟩ :=
      ih (x2 * 256 ^ 5 + x3 * 256 ^ 4 + x4 * 256 ^ 3 + x5 * 256 ^ 2 + x6 * 256 + x7 + inc / 256 + (x8 + inc % 256 + carry) / 256) rfl
    constructor
    · intro hcase
      obtain ⟨j, hj⟩ := ih1 (by omega)
      refine ⟨j, ?_⟩
      rw [hj]
      simp only [Prod.mk.injEq, List.cons.injEq, and_true, true_and]
      omega
    · intro hcase
      rw [ih2 (by omega)]
      simp only [Prod.mk.injEq, List.cons.injEq, and_true, true_and]
      omega

/-- Closed form of `incLoop` from index 9: the low bytes hold the exact
big-endian sum, with a carry flag when it exceeds the field. -/
theorem incLoop_spec_9 (x0 x1 x2 x3 x4 x5 x6 x7 x8 x9 : Nat)
    (h0 : x0 < 256) (h1 : x1 < 256) (h2 : x2 < 256) (h3 : x3 < 256) (h4 : x4 < 256) (h5 : x5 < 256) (h6 : x6 < 256) (h7 : x7 < 256) (h8 : x8 < 256) (h9 : x9 < 256)
    (inc carry : Nat) (hinc : inc < 256 ^ 8) (hcarry : carry ≤ 1) :
    ∀ T, T = x2 * 256 ^ 7 + x3 * 256 ^ 6 + x4 * 256 ^ 5 + x5 * 256 ^ 4 + x6 * 256 ^ 3 + x7 * 256 ^ 2 + x8 * 256 + x9 + inc + carry →
    (T < 256 ^ 8 → ∃ j, incLoop 9 [x0, x1, x2, x3, x4, x5, x6, x7, x8, x9] inc carry =
      ([x0, x1, T / 256 ^ 7 % 256, T / 256 ^ 6 % 256, T / 256 ^ 5 % 256, T / 256 ^ 4 % 256, T / 256 ^ 3 % 256, T / 256 ^ 2 % 256, T / 256 % 256, T % 256], j, 0, 0)) ∧
    (256 ^ 8 ≤ T → incLoop 9 [x0, x1, x2, x3, x4, x5, x6, x7, x8, x9] inc carry =
      ([x0, x1, T / 256 ^ 7 % 256, T / 256 ^ 6 % 256, T / 256 ^ 5 % 256, T / 256 ^ 4 % 256, T / 256 ^ 3 % 256, T / 256 ^ 2 % 256, T / 256 % 256, T % 256], 1, 0, 1)) := by
  intro T hT
  rw [incLoop_unfold_9]
  by_cases hbr : inc / 256 = 0 ∧ (x9 + inc % 256 + carry) / 256 = 0
  · rw [if_pos hbr]
    obtain ⟨hbr1, hbr2⟩ := hbr
    constructor
    · intro hcase
      refine ⟨8, ?_⟩
      simp only [Prod.mk.injEq, List.cons.injEq, and_true, true_and]
      omega
    · intro hcase
      exfalso
      omega
  · rw [if_neg hbr]
    have ih := incLoop_spec_8 x0 x1 x2 x3 x4 x5 x6 x7 x8 ((x9 + inc % 256 + carry) % 256) 
      h0 h1 h2 h3 h4 h5 h6 h7 h8 (by omega) 
      (inc / 256) ((x9 + inc % 256 + carry) / 256) (by omega) (by omega)
    obtain ⟨ih1, ih2⟩ :=
      ih (x2 * 256 ^ 6 + x3 * 256 ^ 5 + x4 * 256 ^ 4 + x5 * 256 ^ 3 + x6 * 256 ^ 2 + x7 * 256 + x8 + inc / 256 + (x9 + inc % 256 + carry) / 256) rfl
    constructor
    · intro hcase
      obtain ⟨j, hj⟩ := ih1 (by omega)
      refine ⟨j, ?_⟩
      rw [hj]
      simp only [Prod.mk.injEq, List.cons.injEq, and_true, true_and]
      omega
    · intro hcase
      rw [ih2 (by omega)]
      simp only [Prod.mk.injEq, List.cons.injEq, and_true, true_and]
      omega


/-- `increment` on a 10-byte entropy value: if adding the increment overflows
past 80 bits the result is `ErrMonotonicOverflow`, otherwise exactly the
bytes of the sum are stored. -/
theorem increment_full {e0 e1 e2 e3 e4 e5 e6 e7 e8 e9 : Nat}
    (h0 : e0 < 256) (h1 : e1 < 256) (h2 : e2 < 256) (h3 : e3 < 256)
    (h4 : e4 < 256) (h5 : e5 < 256) (h6 : e6 < 256) (h7 : e7 < 256)
    (h8 : e8 < 256) (h9 : e9 < 256) (inc : Nat) (hinc : inc < 2 ^ 64) :
    ∀ S, S = valB 256 0 [e0, e1, e2, e3, e4, e5, e6, e7, e8, e9] + inc →
    (2 ^ 80 ≤ S →
      increment [e0, e1, e2, e3, e4, e5, e6, e7, e8, e9] inc = Except.error UlidErr.monotonicOverflow) ∧
    (S < 2 ^ 80 →
      increment [e0, e1, e2, e3, e4, e5, e6, e7, e8, e9] inc = Except.ok
        [S / 256 ^ 9 % 256, S / 256 ^ 8 % 256, S / 256 ^ 7 % 256,
         S / 256 ^ 6 % 256, S / 256 ^ 5 % 256, S / 256 ^ 4 % 256,
         S / 256 ^ 3 % 256, S / 256 ^ 2 % 256, S / 256 % 256, S % 256]) := by
  intro S hS
  simp only [valB] at hS
  obtain ⟨part1, part2⟩ := incLoop_spec_9 e0 e1 e2 e3 e4 e5 e6 e7 e8 e9
    h0 h1 h2 h3 h4 h5 h6 h7 h8 h9 inc 0 (by omega) (by omega)
    (e2 * 256 ^ 7 + e3 * 256 ^ 6 + e4 * 256 ^ 5 + e5 * 256 ^ 4 + e6 * 256 ^ 3 + e7 * 256 ^ 2 + e8 * 256 + e9 + inc + 0) rfl
  constructor
  · intro hcase
    have hT : 256 ^ 8 ≤ e2 * 256 ^ 7 + e3 * 256 ^ 6 + e4 * 256 ^ 5 + e5 * 256 ^ 4 + e6 * 256 ^ 3 + e7 * 256 ^ 2 + e8 * 256 + e9 + inc + 0 := by omega
    simp only [increment]
    rw [part2 hT]
    dsimp only
    rw [if_pos (by omega)]
    simp only [List.getD, List.get?, Option.getD]
    rw [if_pos (by omega)]
  · intro hcase
    rcases Nat.lt_or_ge (e2 * 256 ^ 7 + e3 * 256 ^ 6 + e4 * 256 ^ 5 + e5 * 256 ^ 4 + e6 * 256 ^ 3 + e7 * 256 ^ 2 + e8 * 256 + e9 + inc + 0) (256 ^ 8) with hT | hT
    · obtain ⟨j, hj⟩ := part1 hT
      simp only [increment]
      rw [hj]
      dsimp only
      rw [if_neg (by omega)]
      refine congrArg Except.ok ?_
      simp only [List.cons.injEq, and_true]
      omega
    · simp only [increment]
      rw [part2 hT]
      dsimp only
      rw [if_pos (by omega)]
      simp only [List.getD, List.get?, Option.getD]
      rw [if_neg (by omega)]
      refine congrArg Except.ok ?_
      simp only [List.set, List.cons.injEq, and_true]
      omega

/-- One telescoping step of big-endian byte recomposition. -/
theorem div_byte_step (a i j : Nat) (h : i = j + 1) :
    a / 256 ^ i * 256 + a / 256 ^ j % 256 = a / 256 ^ j := by
  subst h
  have h1 : a / 256 ^ j / 256 = a / 256 ^ (j + 1) := by
    rw [Nat.div_div_eq_div_mul, ← Nat.pow_succ]
  conv_rhs => rw [← Nat.div_add_mod (a / 256 ^ j) 256]
  rw [h1]
  omega

/-- Reading back the ten big-endian bytes of an 80-bit value gives the
value. -/
theorem val_bytes10 (S : Nat) (hS : S < 2 ^ 80) :
    valB 256 0 [S / 256 ^ 9 % 256, S / 256 ^ 8 % 256, S / 256 ^ 7 % 256,
      S / 256 ^ 6 % 256, S / 256 ^ 5 % 256, S / 256 ^ 4 % 256,
      S / 256 ^ 3 % 256, S / 256 ^ 2 % 256, S / 256 % 256, S % 256] = S := by
  simp only [valB, Nat.zero_mul, Nat.zero_add]
  rw [Nat.mod_eq_of_lt (show S / 256 ^ 9 < 256 by omega),
    div_byte_step S 9 8 rfl, div_byte_step S 8 7 rfl, div_byte_step S 7 6 rfl,
    div_byte_step S 6 5 rfl, div_byte_step S 5 4 rfl, div_byte_step S 4 3 rfl,
    div_byte_step S 3 2 rfl]
  have h1 : S / 256 ^ 2 * 256 + S / 256 % 256 = S / 256 := by
    have h2 : S / 256 / 256 = S / 256 ^ 2 := by
      rw [Nat.div_div_eq_div_mul]
      norm_num
    conv_rhs => rw [← Nat.div_add_mod (S / 256) 256]
    rw [h2]
    omega
  rw [h1]
  omega

/-- Reading back the six timestamp bytes of a 48-bit millisecond count gives
the count. -/
theorem val_tsBytes (ms : Nat) (hms : ms ≤ maxTime) : valB 256 0 (tsBytes ms) = ms := by
  have hm : maxTime = 2 ^ 48 - 1 := rfl
  simp only [tsBytes, valB, Nat.zero_mul, Nat.zero_add, Nat.shiftRight_eq_div_pow]
  rw [show (2:Nat) ^ 40 = 256 ^ 5 by norm_num, show (2:Nat) ^ 32 = 256 ^ 4 by norm_num,
    show (2:Nat) ^ 24 = 256 ^ 3 by norm_num, show (2:Nat) ^ 16 = 256 ^ 2 by norm_num]
  rw [Nat.mod_eq_of_lt (show ms / 256 ^ 5 < 256 by omega),
    div_byte_step ms 5 4 rfl, div_byte_step ms 4 3 rfl, div_byte_step ms 3 2 rfl]
  have h1 : ms / 256 ^ 2 * 256 + ms / 2 ^ 8 % 256 = ms / 256 := by
    have h2 : ms / 256 / 256 = ms / 256 ^ 2 := by
      rw [Nat.div_div_eq_div_mul]
      norm_num
    have h3 : ms / 2 ^ 8 = ms / 256 := by norm_num
    rw [h3]
    conv_rhs => rw [← Nat.div_add_mod (ms / 256) 256]
    rw [h2]
    omega
  rw [h1]
  omega

/-- On success, `increment` keeps a valid 10-byte buffer holding exactly the
incremented value (which therefore fits in 80 bits). -/
theorem increment_ok_spec (e : List Nat) (hlen : e.length = 10)
    (hb : ∀ x ∈ e, x < 256) (inc : Nat) (hinc : inc < 2 ^ 64) {e' : List Nat}
    (h : increment e inc = Except.ok e') :
    e'.length = 10 ∧ (∀ x ∈ e', x < 256) ∧
      valB 256 0 e' = valB 256 0 e + inc ∧ valB 256 0 e + inc < 2 ^ 80 := by
  obtain ⟨x0, x1, x2, x3, x4, x5, x6, x7, x8, x9, rfl⟩ := list_eq_10 e hlen
  simp only [List.mem_cons, List.not_mem_nil, or_false, forall_eq_or_imp, forall_eq]
    at hb
  obtain ⟨h0, h1, h2, h3, h4, h5, h6, h7, h8, h9⟩ := hb
  obtain ⟨S, hS⟩ : ∃ S, S = valB 256 0 [x0, x1, x2, x3, x4, x5, x6, x7, x8, x9] + inc :=
    ⟨_, rfl⟩
  obtain ⟨pErr, pOk⟩ := increment_full h0 h1 h2 h3 h4 h5 h6 h7 h8 h9 inc hinc S hS
  rcases Nat.lt_or_ge S (2 ^ 80) with hc | hc
  · rw [pOk hc] at h
    simp only [Except.ok.injEq] at h
    subst h
    refine ⟨rfl, ?_, ?_, by omega⟩
    · intro x hx
      simp only [List.mem_cons, List.not_mem_nil, or_false] at hx
      have m256 : ∀ y : Nat, y % 256 < 256 := fun y => Nat.mod_lt _ (by norm_num)
      rcases hx with rfl | rfl | rfl | rfl | rfl | rfl | rfl | rfl | rfl | rfl <;>
        exact m256 _
    · rw [← hS]
      exact val_bytes10 S hc
  · rw [pErr hc] at h
    exact absurd h (by simp)

/-! ### Claim theorem C5 -/

/-- **C5.** Within a repeated millisecond, the generation step fails with the
distinct `ErrMonotonicOverflow` error iff adding the drawn random increment to
the stored 80-bit big-endian entropy value would overflow past 80 bits; a
successful step stores exactly the sum (no silent wrap-around), and the same
if-and-only-if holds for the whole `newUlid` step in the repeated-millisecond
state. -/
theorem increment_overflow_iff (e : List Nat) (hlen : e.length = 10)
    (hb : ∀ x ∈ e, x < 256) (inc : Nat) (hinc : inc < 2 ^ 64) :
    (increment e inc = Except.error UlidErr.monotonicOverflow ↔
      2 ^ 80 ≤ valB 256 0 e + inc) ∧
    (∀ e', increment e inc = Except.ok e' →
      valB 256 0 e' = valB 256 0 e + inc) ∧
    (∀ m ms fresh, m.isZero = false → m.ms = ms → ms ≤ maxTime →
      m.entropy = e →
      (newUlid ms m fresh inc = Except.error UlidErr.monotonicOverflow ↔
        2 ^ 80 ≤ valB 256 0 e + inc)) := by
  obtain ⟨x0, x1, x2, x3, x4, x5, x6, x7, x8, x9, rfl⟩ := list_eq_10 e hlen
  simp only [List.mem_cons, List.not_mem_nil, or_false, forall_eq_or_imp, forall_eq]
    at hb
  obtain ⟨h0, h1, h2, h3, h4, h5, h6, h7, h8, h9⟩ := hb
  obtain ⟨S, hS⟩ : ∃ S, S = valB 256 0 [x0, x1, x2, x3, x4, x5, x6, x7, x8, x9] + inc :=
    ⟨_, rfl⟩
  obtain ⟨pErr, pOk⟩ := increment_full h0 h1 h2 h3 h4 h5 h6 h7 h8 h9 inc hinc S hS
  have hiff : increment [x0, x1, x2, x3, x4, x5, x6, x7, x8, x9] inc =
      Except.error UlidErr.monotonicOverflow ↔
      2 ^ 80 ≤ valB 256 0 [x0, x1, x2, x3, x4, x5, x6, x7, x8, x9] + inc := by
    rw [← hS]
    constructor
    · intro h
      rcases Nat.lt_or_ge S (2 ^ 80) with hc | hc
      · rw [pOk hc] at h
        exact absurd h (by simp)
      · exact hc
    · intro h
      exact pErr h
  refine ⟨hiff, ?_, ?_⟩
  · intro e' h
    refine (increment_ok_spec [x0, x1, x2, x3, x4, x5, x6, x7, x8, x9] rfl ?_
      inc hinc h).2.2.1
    intro x hx
    simp only [List.mem_cons, List.not_mem_nil, or_false] at hx
    rcases hx with rfl | rfl | rfl | rfl | rfl | rfl | rfl | rfl | rfl | rfl <;>
      assumption
  · intro m ms fresh hz hms hle he
    rw [newUlid, if_neg (by omega), MonotonicRead, if_pos ⟨hz, hms⟩, he]
    rcases hI : increment [x0, x1, x2, x3, x4, x5, x6, x7, x8, x9] inc with er | e1
    · simp only
      constructor
      · intro h
        simp only [Except.error.injEq] at h
        exact hiff.mp (h ▸ hI)
      · intro h
        rw [hiff.mpr h] at hI
        simp only [Except.error.injEq] at hI
        rw [hI]
    · simp only
      constructor
      · intro h
        exact absurd h (by simp)
      · intro h
        rw [hiff.mpr h] at hI
        exact absurd hI (by simp)

/-- Witness for `increment_overflow_iff`: an all-ones entropy register
overflows on any positive increment. -/
theorem increment_overflow_iff_witness :
    (increment [255, 255, 255, 255, 255, 255, 255, 255, 255, 255] 1 =
        Except.error UlidErr.monotonicOverflow ↔
      2 ^ 80 ≤ valB 256 0 [255, 255, 255, 255, 255, 255, 255, 255, 255, 255] + 1) ∧
    (∀ e', increment [255, 255, 255, 255, 255, 255, 255, 255, 255, 255] 1 =
        Except.ok e' →
      valB 256 0 e' = valB 256 0 [255, 255, 255, 255, 255, 255, 255, 255, 255, 255] + 1) ∧
    (∀ m ms fresh, m.isZero = false → m.ms = ms → ms ≤ maxTime →
      m.entropy = [255, 255, 255, 255, 255, 255, 255, 255, 255, 255] →
      (newUlid ms m fresh 1 = Except.error UlidErr.monotonicOverflow ↔
        2 ^ 80 ≤ valB 256 0 [255, 255, 255, 255, 255, 255, 255, 255, 255, 255] + 1)) :=
  increment_overflow_iff [255, 255, 255, 255, 255, 255, 255, 255, 255, 255] rfl
    (by decide) 1 (by decide)

/-- A successful `MonotonicRead` hands out a valid 10-byte entropy block, and
the new state stores exactly that block with the request's millisecond; in the
repeated-millisecond case the block's value is the old value plus the drawn
increment. -/
theorem MonotonicRead_ok (m : MonotonicEntropy) (ms : Nat) (fresh : List Nat)
    (inc : Nat) (hme : m.entropy.length = 10) (hmb : ∀ x ∈ m.entropy, x < 256)
    (hf : fresh.length = 10) (hfb : ∀ x ∈ fresh, x < 256) (hinc : inc < 2 ^ 64)
    {p : List Nat} {m' : MonotonicEntropy}
    (h : MonotonicRead m ms fresh inc = Except.ok (p, m')) :
    p.length = 10 ∧ (∀ x ∈ p, x < 256) ∧ m' = ⟨ms, p, false⟩ ∧
      (m.isZero = false → m.ms = ms →
        valB 256 0 p = valB 256 0 m.entropy + inc) := by
  rw [MonotonicRead] at h
  split at h
  · rename_i hcond
    rcases hI : increment m.entropy inc with er | e1
    · rw [hI] at h
      exact absurd h (by simp)
    · rw [hI] at h
      simp only [Except.ok.injEq, Prod.mk.injEq] at h
      obtain ⟨rfl, rfl⟩ := h
      obtain ⟨hl, hbnd, hval, -⟩ := increment_ok_spec m.entropy hme hmb inc hinc hI
      refine ⟨hl, hbnd, ?_, fun _ _ => hval⟩
      have hz : m.isZero = false := hcond.1
      have hm : m.ms = ms := hcond.2
      cases m with
      | mk a b c =>
        simp only at hz hm ⊢
        rw [hz, hm]
  · rename_i hcond
    simp only [Except.ok.injEq, Prod.mk.injEq] at h
    obtain ⟨rfl, rfl⟩ := h
    refine ⟨hf, hfb, rfl, ?_⟩
    intro hz hm
    exact absurd ⟨hz, hm⟩ hcond

/-- **C9.** Every string produced by a successful `newUlid` step (hence by
`NewULID`) has exactly 26 characters, all from the fixed 32-symbol alphabet
`0123456789ABCDEFGHJKMNPQRSTVWXYZ`. -/
theorem newULID_format (ms : Nat) (m : MonotonicEntropy) (fresh : List Nat)
    (inc : Nat) (hme : m.entropy.length = 10) (hmb : ∀ x ∈ m.entropy, x < 256)
    (hf : fresh.length = 10) (hfb : ∀ x ∈ fresh, x < 256) (hinc : inc < 2 ^ 64)
    (id : List Nat) (m' : MonotonicEntropy)
    (h : newUlid ms m fresh inc = Except.ok (id, m')) :
    (ulidString id).length = 26 ∧ ∀ c ∈ ulidString id, c ∈ encoding := by
  rw [newUlid] at h
  split at h
  · exact absurd h (by simp)
  · rcases hMR : MonotonicRead m ms fresh inc with er | pm
    · rw [hMR] at h
      exact absurd h (by simp)
    · obtain ⟨p, m''⟩ := pm
      rw [hMR] at h
      simp only [Except.ok.injEq, Prod.mk.injEq] at h
      obtain ⟨rfl, rfl⟩ := h
      obtain ⟨hl, hbnd, -, -⟩ := MonotonicRead_ok m ms fresh inc hme hmb hf hfb hinc hMR
      obtain ⟨x0, x1, x2, x3, x4, x5, x6, x7, x8, x9, rfl⟩ := list_eq_10 p hl
      simp only [List.mem_cons, List.not_mem_nil, or_false, forall_eq_or_imp,
        forall_eq] at hbnd
      obtain ⟨g0, g1, g2, g3, g4, g5, g6, g7, g8, g9⟩ := hbnd
      have m256 : ∀ y : Nat, y % 256 < 256 := fun y => Nat.mod_lt _ (by norm_num)
      have hglt := ulidGroups_lt (m256 (ms >>> 40)) (m256 (ms >>> 32))
        (m256 (ms >>> 24)) (m256 (ms >>> 16)) (m256 (ms >>> 8)) (m256 ms)
        g0 g1 g2 g3 g4 g5 g6 g7 g8 g9
      constructor
      · rfl
      · intro c hc
        rw [ulidString, List.mem_map] at hc
        obtain ⟨g, hg, rfl⟩ := hc
        exact encAt_mem g (hglt g hg)

/-- Witness for `newULID_format`: one concrete generation step. -/
theorem newULID_format_witness :
    (ulidString (tsBytes 1700000000000 ++ [9, 8, 7, 6, 5, 4, 3, 2, 1, 0])).length = 26 ∧
    ∀ c ∈ ulidString (tsBytes 1700000000000 ++ [9, 8, 7, 6, 5, 4, 3, 2, 1, 0]),
      c ∈ encoding :=
  newULID_format 1700000000000 monotonicInit [9, 8, 7, 6, 5, 4, 3, 2, 1, 0] 7
    rfl (by decide) rfl (by decide) (by decide)
    (tsBytes 1700000000000 ++ [9, 8, 7, 6, 5, 4, 3, 2, 1, 0]) ⟨1700000000000,
      [9, 8, 7, 6, 5, 4, 3, 2, 1, 0], false⟩ rfl

/-- The 16-byte id assembled from a timestamp and a 10-byte entropy block has
the numeric value `ms * 2 ^ 80 + entropy`. -/
theorem val_ts_append (ms : Nat) (hms : ms ≤ maxTime) (p : List Nat)
    (hp : p.length = 10) :
    valB 256 0 (tsBytes ms ++ p) = ms * 2 ^ 80 + valB 256 0 p := by
  rw [valB_append, valB_acc, val_tsBytes ms hms, hp]
  norm_num

/-- A run of ULID generation steps from a valid generator state yields the
encodings of a list of 16-byte ids whose numeric values strictly increase
(assuming non-decreasing millisecond readings and a well-formed randomness
oracle). -/
theorem runULID_spec (inputs : List (Nat × List Nat × Nat)) :
    ∀ (m : MonotonicEntropy),
    (inputs.map (fun t => t.1)).Chain' (· ≤ ·) →
    (∀ t ∈ inputs, t.1 ≤ maxTime ∧ t.2.1.length = 10 ∧ (∀ x ∈ t.2.1, x < 256) ∧
      1 ≤ t.2.2 ∧ t.2.2 < 2 ^ 64) →
    m.entropy.length = 10 → (∀ x ∈ m.entropy, x < 256) →
    (m.isZero = false → ∀ t0 ∈ inputs.head?, m.ms ≤ t0.1) →
    ∃ ids : List (List Nat),
      runULID m inputs = ids.map ulidString ∧
      (∀ id ∈ ids, id.length = 16 ∧ ∀ x ∈ id, x < 256) ∧
      ids.Pairwise (fun a b => valB 256 0 a < valB 256 0 b) ∧
      (m.isZero = false →
        ∀ id ∈ ids, m.ms * 2 ^ 80 + valB 256 0 m.entropy < valB 256 0 id) := by
  induction inputs with
  | nil =>
    intro m _ _ _ _ _
    exact ⟨[], rfl, by simp, by simp, by simp⟩
  | cons t rest ih =>
    obtain ⟨ms, fresh, inc⟩ := t
    intro m hchain hin hme hmb hlink
    obtain ⟨hms_le, hfl, hfb, hinc1, hinc2⟩ := hin (ms, fresh, inc) (by simp)
    simp only at hms_le hfl hfb hinc1 hinc2
    have hin' : ∀ t ∈ rest, t.1 ≤ maxTime ∧ t.2.1.length = 10 ∧
        (∀ x ∈ t.2.1, x < 256) ∧ 1 ≤ t.2.2 ∧ t.2.2 < 2 ^ 64 :=
      fun t ht => hin t (by simp [ht])
    have hchain' : (rest.map (fun t => t.1)).Chain' (· ≤ ·) := by
      have := hchain.tail
      simpa using this
    rcases hMR : MonotonicRead m ms fresh inc with er | pm
    · have hnew : newUlid ms m fresh inc = Except.error er := by
        rw [newUlid, if_neg (by omega), hMR]
      refine ⟨[], ?_, by simp, by simp, by simp⟩
      simp only [runULID, hnew, List.map_nil]
    · obtain ⟨p, m''⟩ := pm
      have hnew : newUlid ms m fresh inc = Except.ok (tsBytes ms ++ p, m'') := by
        rw [newUlid, if_neg (by omega), hMR]
      obtain ⟨hpl, hpb, hm'', hsame⟩ :=
        MonotonicRead_ok m ms fresh inc hme hmb hfl hfb hinc2 hMR
      subst hm''
      have ihhead : ∀ t0 ∈ rest.head?, ms ≤ t0.1 := by
        intro t0 ht0
        cases rest with
        | nil => simp at ht0
        | cons t1 r =>
          simp only [List.head?, Option.mem_def, Option.some.injEq] at ht0
          subst ht0
          simp only [List.map_cons] at hchain
          exact (List.chain'_cons.mp hchain).1
      obtain ⟨ids', heq', hvalid', hpair', hlow'⟩ :=
        ih ⟨ms, p, false⟩ hchain' hin' hpl hpb (fun _ => ihhead)
      have hid0len : (tsBytes ms ++ p).length = 16 := by
        simp [tsBytes, hpl]
      have m256 : ∀ y : Nat, y % 256 < 256 := fun y => Nat.mod_lt _ (by norm_num)
      have hid0b : ∀ x ∈ tsBytes ms ++ p, x < 256 := by
        intro x hx
        rcases List.mem_append.mp hx with hx | hx
        · simp only [tsBytes, List.mem_cons, List.not_mem_nil, or_false] at hx
          rcases hx with rfl | rfl | rfl | rfl | rfl | rfl <;> exact m256 _
        · exact hpb x hx
      have hval0 : valB 256 0 (tsBytes ms ++ p) = ms * 2 ^ 80 + valB 256 0 p :=
        val_ts_append ms hms_le p hpl
      refine ⟨(tsBytes ms ++ p) :: ids', ?_, ?_, ?_, ?_⟩
      · simp only [runULID, hnew, heq', List.map_cons]
      · intro id hid
        rcases List.mem_cons.mp hid with rfl | hid
        · exact ⟨hid0len, hid0b⟩
        · exact hvalid' id hid
      · rw [List.pairwise_cons]
        refine ⟨?_, hpair'⟩
        intro b hb
        have := hlow' rfl b hb
        simp only at this
        omega
      · intro hz id hid
        have hvOld : valB 256 0 m.entropy < 2 ^ 80 := by
          have := valB_lt 256 (by norm_num) m.entropy hmb
          rw [hme] at this
          calc valB 256 0 m.entropy < 256 ^ 10 := this
            _ = 2 ^ 80 := by norm_num
        have hkey : m.ms * 2 ^ 80 + valB 256 0 m.entropy <
            valB 256 0 (tsBytes ms ++ p) := by
          rw [hval0]
          by_cases hsm : m.ms = ms
          · have hv := hsame hz hsm
            omega
          · have hms_lt : m.ms < ms := by
              have := hlink hz (ms, fresh, inc) (by simp)
              simp only at this
              omega
            have hvp : 0 ≤ valB 256 0 p := Nat.zero_le _
            calc m.ms * 2 ^ 80 + valB 256 0 m.entropy
                < m.ms * 2 ^ 80 + 2 ^ 80 := by omega
              _ = (m.ms + 1) * 2 ^ 80 := by ring
              _ ≤ ms * 2 ^ 80 := Nat.mul_le_mul_right _ (by omega)
              _ ≤ ms * 2 ^ 80 + valB 256 0 p := by omega
        rcases List.mem_cons.mp hid with rfl | hid
        · exact hkey
        · have := hlow' rfl id hid
          simp only at this
          omega

/-! ### Claim theorem C1 -/

/-- **C1.** For a run of `NewULID`-style generation steps on one generator
(the process-wide locked monotonic entropy source, modelled sequentially
since the mutex serializes calls) with non-decreasing millisecond clock
readings (`t1 ≤ t2`, including equal milliseconds) and a well-formed
randomness oracle, every produced 26-character string is lexicographically
`≤` every later produced string. -/
theorem newULID_monotonic (inputs : List (Nat × List Nat × Nat))
    (hchain : (inputs.map (fun t => t.1)).Chain' (· ≤ ·))
    (hin : ∀ t ∈ inputs, t.1 ≤ maxTime ∧ t.2.1.length = 10 ∧
      (∀ x ∈ t.2.1, x < 256) ∧ 1 ≤ t.2.2 ∧ t.2.2 < 2 ^ 64) :
    (runULID monotonicInit inputs).Pairwise (fun s1 s2 => lexLe s1 s2 = true) := by
  obtain ⟨ids, heq, hvalid, hpair, -⟩ :=
    runULID_spec inputs monotonicInit hchain hin (by simp [monotonicInit])
      (by simp [monotonicInit]) (by intro h; simp [monotonicInit] at h)
  rw [heq, List.pairwise_map]
  refine hpair.imp_of_mem ?_
  intro a b ha hb hab
  obtain ⟨hal, hab'⟩ := hvalid a ha
  obtain ⟨hbl, hbb'⟩ := hvalid b hb
  exact (ulid_lex_iff a b hal hbl hab' hbb').mp
    ((lexLe_iff_val 256 a b (by rw [hal, hbl]) hab' hbb').mpr (Nat.le_of_lt hab))

/-- Witness for `newULID_monotonic`: three generation steps, the first two in
the same millisecond. -/
theorem newULID_monotonic_witness :
    (runULID monotonicInit
      [(1000, [1, 2, 3, 4, 5, 6, 7, 8, 9, 10], 7),
       (1000, [0, 0, 0, 0, 0, 0, 0, 0, 0, 0], 9),
       (1001, [200, 0, 0, 0, 0, 0, 0, 0, 0, 1], 3)]).Pairwise
      (fun s1 s2 => lexLe s1 s2 = true) :=
  newULID_monotonic
    [(1000, [1, 2, 3, 4, 5, 6, 7, 8, 9, 10], 7),
     (1000, [0, 0, 0, 0, 0, 0, 0, 0, 0, 0], 9),
     (1001, [200, 0, 0, 0, 0, 0, 0, 0, 0, 1], 3)] (by simp) (by decide)

end GoUtils
